import Mathlib

/-!
Shallow embedding of the libnn computation/training core.

The embedding follows the C++ sources of the repository:

* `libnn/misc/fixable.hxx`  — the fixable memoisation cell (`fixable`);
* `libnn/topo/nn.hxx`       — the topology graph (`nn`, `neuron`, dendrites);
* `libnn/ml/computation.hxx`— the generic cycle-safe evaluator (`computation`);
* `libnn/ml/nn_func.hxx`    — forward / backward evaluators and the
  `backpropagation` trainer (on-line and batch modes).

The numeric base type `Base_t` is modelled by `ℚ`.  Activation functors are
modelled by a pair of functions (the activation and its derivative).  C++
exceptions are modelled by `Except Err`; a dereference of an iterator that ran
past the end of its container (undefined behaviour in the source) is modelled
by the dedicated error value `Err.overrun`.
-/

namespace Libnn

/-- Abstract error kinds of the library, following the throw sites:
`Err.index` models `std::range_error` (bad neuron index / vacant slot),
`Err.invariant` models `std::logic_error` on fixation violations, const reads
of unfixed cells and backward evaluation of output neurons,
`Err.shape` models the `std::logic_error` thrown on a target-size mismatch,
and `Err.overrun` marks an out-of-bounds iterator dereference (undefined
behaviour in the C++ source, made explicit in the model). -/
inductive Err where
  | index
  | invariant
  | shape
  | overrun
deriving DecidableEq, Repr

/-- Fixation status of a `fixable` cell (`fixable.hxx`, enum `fix_t`). -/
inductive fix_t where
  | UNFIXED
  | SOFTFIX
  | HARDFIX
deriving DecidableEq, Repr

/-- Numeric rank of a fixation mode, reflecting the C++ enum values
`UNFIXED = 0 < SOFTFIX < HARDFIX` used by the comparison in `fixable::fix`. -/
def fix_t.toNat : fix_t → ℕ
  | .UNFIXED => 0
  | .SOFTFIX => 1
  | .HARDFIX => 2

/-- Container for a value that may be fixed (`fixable.hxx`, class `fixable`).
Field names follow the C++ members. -/
structure fixable (T : Type) where
  m_val : T
  m_fix : fix_t
deriving DecidableEq, Repr

namespace fixable

variable {T : Type}

/-- Value is fixed (hard or soft): `UNFIXED != m_fix`. -/
def fixed (c : fixable T) : Bool :=
  c.m_fix ≠ fix_t.UNFIXED

/-- Value setter (`fixable::set`).  The switch falls through: setting succeeds
on an `UNFIXED` cell, on a `SOFTFIX` cell only with `override_fixed = true`,
and throws `std::logic_error` otherwise.  The fixation mark is not changed. -/
def set (c : fixable T) (val : T) (override_fixed : Bool := false) :
    Except Err (fixable T) :=
  match c.m_fix with
  | .UNFIXED => .ok { c with m_val := val }
  | .SOFTFIX =>
      if override_fixed then .ok { c with m_val := val } else .error .invariant
  | .HARDFIX => .error .invariant

/-- Fix value (`fixable::fix(mode)`): `if (mode > m_fix) m_fix = mode`. -/
def fix (c : fixable T) (mode : fix_t := .SOFTFIX) : fixable T :=
  if c.m_fix.toNat < mode.toNat then { c with m_fix := mode } else c

/-- Set and fix value (`fixable::fix(val, override_fixed, mode)`):
`set` followed by `fix(mode)`. -/
def fix_val (c : fixable T) (val : T) (override_fixed : Bool := false)
    (mode : fix_t := .SOFTFIX) : Except Err (fixable T) :=
  (c.set val override_fixed).map (fun c2 => c2.fix mode)

/-- Reset value (`fixable::reset`): restores `(val, UNFIXED)` unless the cell
is hard-fixed, in which case nothing changes. -/
def reset (c : fixable T) (val : T) : fixable T :=
  if c.m_fix = fix_t.HARDFIX then c else { m_val := val, m_fix := .UNFIXED }

end fixable

/-- Activation functor capability: the activation `phi` and its first
derivative `d` (the method `d(x)` required by backpropagation). -/
structure ActFn where
  phi : ℚ → ℚ
  d : ℚ → ℚ

/-- Neuron type (`nn.hxx`, enum `type_t`). -/
inductive type_t where
  | INNER
  | INPUT
  | OUTPUT
deriving DecidableEq, Repr

/-- Dendrite: an incoming weighted synapse (`nn.hxx`, struct `dendrite`).
The C++ `neuron & source` reference is modelled by the slot index of the
source neuron (references always point to the neuron stored in that slot). -/
structure dendrite where
  weight : ℚ
  source : ℕ
deriving DecidableEq, Repr

/-- Neuron (`nn.hxx`, class `neuron`).  Field names follow the C++ members. -/
structure neuron where
  m_index : ℕ
  m_type : type_t
  m_act_fn : ActFn
  m_dendrites : List dendrite

namespace neuron

/-- Helper of `neuron::set_dendrite`: update the first dendrite whose source
is `src`, mirroring `get_dendrite_iter` followed by a weight assignment. -/
def setDendGo (src : ℕ) (w : ℚ) : List dendrite → Option (List dendrite)
  | [] => none
  | d :: ds =>
      if d.source = src then some ({ d with weight := w } :: ds)
      else (setDendGo src w ds).map (d :: ·)

/-- Set dendrite (`neuron::set_dendrite`): if a dendrite to `src` exists its
weight is updated, otherwise a new dendrite is appended at the back. -/
def set_dendrite (n : neuron) (src : ℕ) (w : ℚ) : neuron :=
  match setDendGo src w n.m_dendrites with
  | some ds => { n with m_dendrites := ds }
  | none => { n with m_dendrites := n.m_dendrites ++ [{ weight := w, source := src }] }

/-- Helper of `neuron::unset_dendrite`: erase the first dendrite to `src`. -/
def unsetDendGo (src : ℕ) : List dendrite → List dendrite
  | [] => []
  | d :: ds => if d.source = src then ds else d :: unsetDendGo src ds

/-- Unset dendrite (`neuron::unset_dendrite`): remove the synapse to the
neuron in slot `src`, if present. -/
def unset_dendrite (n : neuron) (src : ℕ) : neuron :=
  { n with m_dendrites := unsetDendGo src n.m_dendrites }

/-- Minimise dendrite count (`neuron::minimise_dendrites`): drop every
dendrite whose weight equals 0 (the local accumulator `w` of the C++ loop is
dead code). -/
def minimise_dendrites (n : neuron) : neuron :=
  { n with m_dendrites := n.m_dendrites.filter (fun d => !(d.weight == 0)) }

end neuron

/-- Neural network topology (`nn.hxx`, class `nn`).  The slot vector stores
`Option neuron` (`std::unique_ptr`: `none` is a vacant slot). -/
structure nn where
  m_size : ℕ
  m_neurons : List (Option neuron)
  m_inputs : List ℕ
  m_outputs : List ℕ

namespace nn

/-- The empty network (`nn::nn`). -/
def empty : nn := { m_size := 0, m_neurons := [], m_inputs := [], m_outputs := [] }

/-- Slot count (`nn::slot_cnt`). -/
def slot_cnt (net : nn) : ℕ := net.m_neurons.length

/-- Add an I/O layer entry (`nn::io_add`). -/
def io_add (net : nn) (n : neuron) : nn :=
  match n.m_type with
  | .INNER => net
  | .INPUT => { net with m_inputs := net.m_inputs ++ [n.m_index] }
  | .OUTPUT => { net with m_outputs := net.m_outputs ++ [n.m_index] }

/-- Remove an I/O layer entry (`nn::io_remove`; `std::list::remove` erases
every element equal to the index). -/
def io_remove (net : nn) (n : neuron) : nn :=
  match n.m_type with
  | .INNER => net
  | .INPUT => { net with m_inputs := net.m_inputs.filter (fun i => !(i == n.m_index)) }
  | .OUTPUT => { net with m_outputs := net.m_outputs.filter (fun i => !(i == n.m_index)) }

/-- Remove all synapses to the neuron living in slot `idx`
(`nn::synapses_remove`; the C++ address comparison identifies the slot). -/
def synapses_remove (net : nn) (idx : ℕ) : nn :=
  { net with m_neurons := net.m_neurons.map (Option.map (fun (m : neuron) => m.unset_dendrite idx)) }

/-- Get neuron by index (`nn::get_neuron`); `none` models the
`std::range_error` thrown on an out-of-range index or a vacant slot. -/
def get_neuron (net : nn) (index : ℕ) : Option neuron :=
  (net.m_neurons.get? index).bind id

/-- Add neuron (`nn::add_neuron`): appends a neuron whose stored index is the
previous slot count, then updates the I/O layer lists. -/
def add_neuron (net : nn) (t : type_t) (act : ActFn) : nn :=
  let index := net.m_neurons.length
  let n : neuron := { m_index := index, m_type := t, m_act_fn := act, m_dendrites := [] }
  let net' : nn := { net with
    m_size := net.m_size + 1
    m_neurons := net.m_neurons ++ [some n] }
  net'.io_add n

/-- Set neuron (`nn::set_neuron`): grow the slot vector with vacancies up to
`index`; if the slot is occupied, drop the old neuron from its role list and
erase all synapses to it; install the fresh neuron and register its role. -/
def set_neuron (net : nn) (index : ℕ) (t : type_t) (act : ActFn) : nn :=
  let grown := net.m_neurons ++ List.replicate (index + 1 - net.m_neurons.length) none
  let net0 : nn := { net with m_neurons := grown }
  let net1 : nn :=
    match net0.m_neurons.get? index with
    | some (some old) => (net0.io_remove old).synapses_remove index
    | _ => { net0 with m_size := net0.m_size + 1 }
  let n : neuron := { m_index := index, m_type := t, m_act_fn := act, m_dendrites := [] }
  let net2 : nn := { net1 with m_neurons := net1.m_neurons.set index (some n) }
  net2.io_add n

/-- Remove neuron (`nn::remove_neuron`): drop the I/O entry, erase all
synapses to the neuron, vacate its slot (the slot is `n.index()`, which for
any neuron handed out by the network equals the slot it lives in). -/
def remove_neuron (net : nn) (n : neuron) : nn :=
  let net1 := (net.io_remove n).synapses_remove n.m_index
  { net1 with
    m_neurons := net1.m_neurons.set n.m_index none
    m_size := net1.m_size - 1 }

/-- Compaction loop of `nn::reindex`: walk the slots in order, renumber the
non-vacant neurons consecutively and rebuild the I/O lists. -/
def reindexGo : List (Option neuron) → List (Option neuron) → List ℕ → List ℕ →
    List (Option neuron) × List ℕ × List ℕ
  | [], acc, ins, outs => (acc, ins, outs)
  | none :: rest, acc, ins, outs => reindexGo rest acc ins outs
  | some n :: rest, acc, ins, outs =>
      let idx := acc.length
      reindexGo rest (acc ++ [some { n with m_index := idx }])
        (if n.m_type = .INPUT then ins ++ [idx] else ins)
        (if n.m_type = .OUTPUT then outs ++ [idx] else outs)

/-- Reindex network (`nn::reindex`): compacts slots, rewrites stored indices
and rebuilds the input/output lists (the stored `m_size` is untouched). -/
def reindex (net : nn) : nn :=
  let r := reindexGo net.m_neurons [] [] []
  { m_size := net.m_size, m_neurons := r.1, m_inputs := r.2.1, m_outputs := r.2.2 }

/-- Prune network (`nn::prune`).  The body of the C++ traversal is the
statement `n.minimise_dendrites;` — a member-function name expression whose
value is discarded, not a call — so the traversal has no effect and the
network is returned unchanged. -/
def prune (net : nn) : nn := net

/-- One pass of the removal loop in `nn::minimise`: walk the slots in order
on the live network, removing every INNER neuron without dendrites; the
countdown `k` spans the slot count, which removals do not change. -/
def minimiseGoSlots : nn → ℕ → ℕ → nn × Bool
  | net, _, 0 => (net, false)
  | net, i, k+1 =>
      match net.m_neurons.get? i with
      | some (some n) =>
          if n.m_type = .INNER ∧ n.m_dendrites.length = 0 then
            let r := minimiseGoSlots (net.remove_neuron n) (i+1) k
            (r.1, true)
          else minimiseGoSlots net (i+1) k
      | _ => minimiseGoSlots net (i+1) k

/-- The do/while loop of `nn::minimise`, with a fuel bound: every round that
continues has removed at least one neuron, so `slot_cnt + 1` rounds always
reach the fixpoint of the C++ loop. -/
def minimiseLoop : nn → ℕ → nn
  | net, 0 => net
  | net, fuel+1 =>
      let r := minimiseGoSlots net 0 net.m_neurons.length
      if r.2 then minimiseLoop r.1 fuel else r.1

/-- Minimise network (`nn::minimise`): prune (a no-op, see `nn.prune`), then
repeatedly remove INNER neurons with no dendrites, then reindex. -/
def minimise (net : nn) : nn :=
  (minimiseLoop net.prune (net.m_neurons.length + 1)).reindex

/-- Mutate the neuron in slot `i` by `f` (carrier of the per-neuron public
operations such as `set_dendrite` reached through `get_neuron`). -/
def on_neuron (net : nn) (i : ℕ) (f : neuron → neuron) : nn :=
  match net.m_neurons.get? i with
  | some (some n) => { net with m_neurons := net.m_neurons.set i (some (f n)) }
  | _ => net

end nn

/-- Networks reachable from the empty network by the public structural
operations named in the specification's invariant: `add_neuron`,
`set_neuron`, `remove_neuron`, `reindex`, `prune` and `minimise`. -/
inductive ReachableNN : nn → Prop where
  | empty : ReachableNN nn.empty
  | add (net : nn) (t : type_t) (act : ActFn) :
      ReachableNN net → ReachableNN (net.add_neuron t act)
  | set (net : nn) (i : ℕ) (t : type_t) (act : ActFn) :
      ReachableNN net → ReachableNN (net.set_neuron i t act)
  | remove (net : nn) (n : neuron) :
      ReachableNN net → net.m_neurons.get? n.m_index = some (some n) →
      ReachableNN (net.remove_neuron n)
  | reindex (net : nn) : ReachableNN net → ReachableNN net.reindex
  | prune (net : nn) : ReachableNN net → ReachableNN net.prune
  | minimise (net : nn) : ReachableNN net → ReachableNN net.minimise

/-- The slot-index invariant on a slot vector: every stored neuron's index
equals its slot position. -/
def slotOk (l : List (Option neuron)) : Prop :=
  ∀ i n, l.get? i = some (some n) → n.m_index = i

/-- Identity activation used by the concrete witnesses. -/
def idAct : ActFn := { phi := fun x => x, d := fun _ => 1 }

/-- A concrete reachable network: one INPUT and one OUTPUT neuron. -/
def netIO : nn := (nn.empty.add_neuron .INPUT idAct).add_neuron .OUTPUT idAct

/-- A network whose OUTPUT neuron (slot 1) has a single dendrite of weight 0
from the INPUT neuron (slot 0): the failing input for C2. -/
def netZeroDend : nn := netIO.on_neuron 1 (fun n => n.set_dendrite 0 0)

/-- State of a `computation` instance (`computation.hxx`): the vector of
fixable per-neuron results and the `m_reset` flag tracking whether every
cell is reset. -/
structure Comp (Fx : Type) where
  m_results : List (fixable Fx)
  m_reset : Bool

namespace Comp

variable {Fx : Type}

/-- Freshly constructed computation (`computation::computation`): one
default-valued unfixed cell per network slot, reset flag raised. -/
def init (slotCnt : ℕ) (d : Fx) : Comp Fx :=
  { m_results := List.replicate slotCnt { m_val := d, m_fix := .UNFIXED }
    m_reset := true }

/-- Reset all cells (`computation::reset`); skipped in O(1) when the grid is
already marked reset.  `d` is the default value `T()` used by
`fixable::reset`. -/
def reset (s : Comp Fx) (d : Fx) : Comp Fx :=
  if s.m_reset then s
  else { m_results := s.m_results.map (fun c => c.reset d), m_reset := true }

/-- Direct set-and-fix of a cell (the protected overload
`computation::fx(index, value, override_fixed)`): bounds check, then
`m_results[index].fix(value, override_fixed)` and clear the reset flag. -/
def fxSet (s : Comp Fx) (i : ℕ) (v : Fx) (ov : Bool) : Except Err (Comp Fx) :=
  match s.m_results.get? i with
  | none => .error .index
  | some c =>
      (c.fix_val v ov .SOFTFIX).map
        (fun c2 => { m_results := s.m_results.set i c2, m_reset := false })

/-- Const getter (`computation::fx(index) const`): the stored value if the
cell is fixed, otherwise the `std::logic_error` of a const read. -/
def fxGet (s : Comp Fx) (i : ℕ) : Except Err Fx :=
  match s.m_results.get? i with
  | none => .error .index
  | some c => if c.fixed then .ok c.m_val else .error .invariant

/-- Modelled from the spec: `computation::const_fx(index, value)` is part of
the computation engine revision whose callers (`forward::fix`,
`backward::fix`, the feed-forward bias pin) are in the sources but whose own
body is not.  Per the spec it "HARD-fixes a cell to value": bounds check,
forced set, hard fixation, reset flag cleared. -/
def constFx (s : Comp Fx) (i : ℕ) (v : Fx) : Except Err (Comp Fx) :=
  match s.m_results.get? i with
  | none => .error .index
  | some c =>
      (c.fix_val v true .HARDFIX).map
        (fun c2 => { m_results := s.m_results.set i c2, m_reset := false })

/-- Number of unfixed cells; the termination measure of the recursive
evaluator. -/
def unfixedCount (s : Comp Fx) : ℕ :=
  (s.m_results.filter (fun c => !c.fixed)).length

end Comp

/-- The recursion pattern of a `computation` subclass hook `f(n)`: an
optional pre-check (`backward::f` rejects OUTPUT neurons before recursing),
the list of neuron indices the hook evaluates recursively through
`this->fx`, and the combination of the recursive results (which may read
other cached data and may fail).  `nn_func::f`, `forward::f` and
`backward::f` are instances. -/
structure EvalSpec (Fx : Type) where
  pre : neuron → Except Err Unit
  deps : neuron → List ℕ
  post : neuron → List Fx → Except Err Fx

mutual

/-- The memoising evaluator `computation::fx(index)` (mutating overload),
with explicit fuel: the nesting depth of the C++ recursion.  A fixed cell is
returned at once; otherwise the cell is soft-fixed in advance (breaking
cycles), the reset flag is cleared, the hook recurses on the dependency
indices, and the result overwrites the cell with a forced set.  `none`
models only fuel exhaustion, which `fxF_isSome` below rules out. -/
def fxF {Fx : Type} (net : nn) (es : EvalSpec Fx) :
    ℕ → ℕ → Comp Fx → Option (Except Err (Fx × Comp Fx))
  | 0, _, _ => none
  | fuel+1, i, s =>
      match s.m_results.get? i with
      | none => some (.error .index)
      | some c =>
          if c.fixed then some (.ok (c.m_val, s))
          else
            match net.get_neuron i with
            | none => some (.error .index)
            | some n =>
                match es.pre n with
                | .error e => some (.error e)
                | .ok _ =>
                    match fxListF net es fuel (es.deps n)
                        { m_results := s.m_results.set i (c.fix .SOFTFIX),
                          m_reset := false } with
                    | none => none
                    | some (.error e) => some (.error e)
                    | some (.ok (vs, s2)) =>
                        match es.post n vs with
                        | .error e => some (.error e)
                        | .ok v =>
                            match s2.m_results.get? i with
                            | none => some (.error .index)
                            | some c2 =>
                                match c2.set v true with
                                | .error e => some (.error e)
                                | .ok c3 =>
                                    some (.ok (v,
                                      { m_results := s2.m_results.set i c3,
                                        m_reset := s2.m_reset }))

/-- Sequential evaluation of the dependency indices of a hook, threading the
computation state (the loop bodies of `nn_func::f`, `forward::f` and
`backward::f`).  One unit of fuel is consumed per list element so that the
mutual recursion is structural (and hence computes by kernel reduction);
`fx_isSome` shows a fuel budget linear in the number of unfixed cells is
always sufficient. -/
def fxListF {Fx : Type} (net : nn) (es : EvalSpec Fx) :
    ℕ → List ℕ → Comp Fx → Option (Except Err (List Fx × Comp Fx))
  | _, [], s => some (.ok ([], s))
  | 0, _ :: _, _ => none
  | fuel+1, j :: js, s =>
      match fxF net es fuel j s with
      | none => none
      | some (.error e) => some (.error e)
      | some (.ok (v, s')) =>
          match fxListF net es fuel js s' with
          | none => none
          | some (.error e) => some (.error e)
          | some (.ok (vs, s2)) => some (.ok (v :: vs, s2))

end

/-- An upper bound on the dependency-list length over all neurons of the
network, used for the sufficient fuel budget of `fxRun`. -/
def depsBound {Fx : Type} (net : nn) (es : EvalSpec Fx) : ℕ :=
  net.m_neurons.foldl
    (fun m oe =>
      match oe with
      | none => m
      | some n => Nat.max m (es.deps n).length) 0

/-- The sufficient fuel budget for one evaluator call from state `s`. -/
def fxFuel {Fx : Type} (net : nn) (es : EvalSpec Fx) (s : Comp Fx) : ℕ :=
  s.unfixedCount * (depsBound net es + 1) + 1

/-- Run the evaluator with the sufficient fuel budget `fxFuel`; by
`fx_isSome` the `Err.overrun` branch is unreachable. -/
def fxRun {Fx : Type} (net : nn) (es : EvalSpec Fx) (i : ℕ) (s : Comp Fx) :
    Except Err (Fx × Comp Fx) :=
  match fxF net es (fxFuel net es s) i s with
  | some r => r
  | none => .error .overrun

/-- Forward phase result (`backpropagation::forward_result`): the weighted
input sum `net` and the activation value `phi_net`; default `(0, 0)`. -/
structure FwRes where
  net : ℚ
  phi_net : ℚ
deriving DecidableEq, Repr

/-- Backward phase result (`backpropagation::backward_result`): the
backpropagated error `delta`; default `0`. -/
structure BwRes where
  delta : ℚ
deriving DecidableEq, Repr

/-- The hook `forward::f`: recurse on the dendrite sources in order, sum
`weight * phi_net` into `net`, apply the activation. -/
def fwSpec : EvalSpec FwRes :=
  { pre := fun _ => .ok ()
    deps := fun n => n.m_dendrites.map dendrite.source
    post := fun n vs =>
      let netv := (n.m_dendrites.zip vs).foldl
        (fun acc p => acc + p.1.weight * p.2.phi_net) 0
      .ok { net := netv, phi_net := n.m_act_fn.phi netv } }

/-- One entry of the forward synapses mapping (`forward_map_t`): the C++
pair `(const dendrite &, size_t)` of a dendrite reference and the consuming
neuron's index.  The reference into the consumer's dendrite list is modelled
by the pair (consumer index, dendrite position), dereferenced at use time so
that weight updates are visible, exactly like the C++ reference. -/
def create_fmapInsert (fmap : List (List (ℕ × ℕ))) (src : ℕ) (entry : ℕ × ℕ) :
    List (List (ℕ × ℕ)) :=
  match fmap.get? src with
  | some l => fmap.set src (l ++ [entry])
  | none => fmap

/-- Build the forward synapses mapping (`backpropagation::create_fmap`):
for each neuron (slot order) and each of its dendrites (list order), append
the entry to the source's list.  A dendrite whose source index is out of
range would be undefined behaviour in C++ (`fmap[...]` unchecked); the model
ignores it. -/
def create_fmap (net : nn) : List (List (ℕ × ℕ)) :=
  net.m_neurons.foldl
    (fun fmap oe =>
      match oe with
      | none => fmap
      | some n =>
          n.m_dendrites.enum.foldl
            (fun fm p => create_fmapInsert fm p.2.source (n.m_index, p.1)) fmap)
    (List.replicate net.m_neurons.length [])

/-- Dereference a forward-map entry: the current weight of dendrite `e.2` of
neuron `e.1` (the C++ reference read `fw_dend.weight`).  A dangling
reference is undefined behaviour, modelled by `Err.overrun`. -/
def fmapWeight (net : nn) (e : ℕ × ℕ) : Except Err ℚ :=
  match net.get_neuron e.1 with
  | none => .error .overrun
  | some c =>
      match c.m_dendrites.get? e.2 with
      | none => .error .overrun
      | some d => .ok d.weight

/-- The accumulation loop of `backward::f`:
`res.delta += fx(consumer).delta * fw_dend.weight` over the forward-map
entries paired with the recursive results. -/
def bwSumGo (net : nn) (acc : ℚ) : List ((ℕ × ℕ) × BwRes) → Except Err ℚ
  | [] => .ok acc
  | (e, v) :: rest =>
      match fmapWeight net e with
      | .error er => .error er
      | .ok w => bwSumGo net (acc + v.delta * w) rest

/-- The hook `backward::f`: OUTPUT neurons are rejected before any
recursion; otherwise recurse on the consumers recorded in the forward map,
accumulate `delta * weight`, and scale by the derivative of the activation
at the forward `net` value (a const read of the forward grid, which throws
if that cell is unfixed). -/
def bwSpec (net : nn) (fmap : List (List (ℕ × ℕ))) (fw : Comp FwRes) :
    EvalSpec BwRes :=
  { pre := fun n => if n.m_type = .OUTPUT then .error .invariant else .ok ()
    deps := fun n => (fmap.getD n.m_index []).map Prod.fst
    post := fun n vs =>
      match bwSumGo net 0 ((fmap.getD n.m_index []).zip vs) with
      | .error e => .error e
      | .ok total =>
          match fw.fxGet n.m_index with
          | .error e => .error e
          | .ok fwr => .ok { delta := total * n.m_act_fn.d fwr.net } }

/-- Input-layer loop of `forward::operator()`: each input neuron in order
consumes the next input scalar (`*(in_iter++)`) and its cell is set to
`(0, input_i)`; there is no size check, so an exhausted input container
means an out-of-bounds iterator dereference (`Err.overrun`), while surplus
input scalars are simply never read. -/
def setInputs : Comp FwRes → List ℕ → List ℚ → Except Err (Comp FwRes)
  | s, [], _ => .ok s
  | s, idx :: idxs, xs =>
      match xs with
      | [] => .error .overrun
      | x :: xs' =>
          match s.fxSet idx { net := 0, phi_net := x } false with
          | .error e => .error e
          | .ok s' => setInputs s' idxs xs'

/-- Output-layer loop of `forward::operator()`: evaluate each output neuron
and collect `phi_net` in order. -/
def forwardOutputs (net : nn) : Comp FwRes → List ℕ → Except Err (List ℚ × Comp FwRes)
  | s, [] => .ok ([], s)
  | s, idx :: idxs =>
      match fxRun net fwSpec idx s with
      | .error e => .error e
      | .ok (v, s') =>
          match forwardOutputs net s' idxs with
          | .error e => .error e
          | .ok (vs, s2) => .ok (v.phi_net :: vs, s2)

/-- The forward driver `forward::operator()(input)`: reset the grid
(preserving HARD pins), set the input layer, evaluate the output layer. -/
def forwardRun (net : nn) (s : Comp FwRes) (input : List ℚ) :
    Except Err (List ℚ × Comp FwRes) :=
  match setInputs (s.reset { net := 0, phi_net := 0 }) net.m_inputs input with
  | .error e => .error e
  | .ok s1 => forwardOutputs net s1 net.m_outputs

/-- Output-layer loop of `backward::operator()`: for each output neuron the
derivative is taken at the forward `net` value (const read), multiplied with
the next error component, and the delta cell is set. -/
def setOutputDeltas (net : nn) (fw : Comp FwRes) :
    Comp BwRes → List ℕ → List ℚ → Except Err (Comp BwRes)
  | s, [], _ => .ok s
  | s, idx :: idxs, es =>
      match net.get_neuron idx with
      | none => .error .overrun
      | some n =>
          match fw.fxGet idx with
          | .error e => .error e
          | .ok fwr =>
              match es with
              | [] => .error .overrun
              | e0 :: es' =>
                  match s.fxSet idx { delta := e0 * n.m_act_fn.d fwr.net } false with
                  | .error er => .error er
                  | .ok s' => setOutputDeltas net fw s' idxs es'

/-- Input-layer loop of `backward::operator()`: force evaluation of every
delta on paths from the outputs back to the inputs. -/
def bwForceInputs (net : nn) (fmap : List (List (ℕ × ℕ))) (fw : Comp FwRes) :
    Comp BwRes → List ℕ → Except Err (Comp BwRes)
  | s, [] => .ok s
  | s, idx :: idxs =>
      match fxRun net (bwSpec net fmap fw) idx s with
      | .error e => .error e
      | .ok (_, s') => bwForceInputs net fmap fw s' idxs

/-- The backward driver `backward::operator()(error)`. -/
def backwardRun (net : nn) (fmap : List (List (ℕ × ℕ))) (fw : Comp FwRes)
    (s : Comp BwRes) (error : List ℚ) : Except Err (Comp BwRes) :=
  match setOutputDeltas net fw (s.reset { delta := 0 }) net.m_outputs error with
  | .error e => .error e
  | .ok s1 => bwForceInputs net fmap fw s1 net.m_inputs

/-- A computation slot (`backpropagation::comp_slot`): one forward and one
backward grid. -/
structure comp_slot where
  fw : Comp FwRes
  bw : Comp BwRes

/-- Freshly constructed slot (`comp_slot::comp_slot`): grids sized to the
network's slot count. -/
def comp_slot.fresh (net : nn) : comp_slot :=
  { fw := Comp.init net.slot_cnt { net := 0, phi_net := 0 }
    bw := Comp.init net.slot_cnt { delta := 0 } }

/-- The error vector of `backpropagation::compute`:
`errᵢ = actualᵢ − targetᵢ` (the in-place loop `err -= *(out_iter++)`). -/
def errVec (out tgt : List ℚ) : List ℚ :=
  List.zipWith (fun a b => a - b) out tgt

/-- The squared error norm accumulated by the same loop:
`error_norm2 += err * err`. -/
def errNorm2 (out tgt : List ℚ) : ℚ :=
  (errVec out tgt).foldl (fun acc e => acc + e * e) 0

namespace backpropagation

/-- Internal `backpropagation::compute(input, output, slot)`: forward run,
target-size check (throws on mismatch), error vector and squared norm,
backward run; returns the squared norm and the updated slot caches. -/
def compute (net : nn) (fmap : List (List (ℕ × ℕ))) (slot : comp_slot)
    (input target : List ℚ) : Except Err (ℚ × comp_slot) :=
  match forwardRun net slot.fw input with
  | .error e => .error e
  | .ok (out, fwS) =>
      if target.length ≠ out.length then .error .shape
      else
        match backwardRun net fmap fwS slot.bw (errVec out target) with
        | .error e => .error e
        | .ok bwS => .ok (errNorm2 out target, { fw := fwS, bw := bwS })

/-- Dendrite loop of `backpropagation::update`: each weight becomes
`weight − alpha * delta * phi_net(source)`, where `phi_net` is a const read
of the slot's forward grid. -/
def updDendrites (slot : comp_slot) (alpha delta : ℚ) :
    List dendrite → Except Err (List dendrite)
  | [] => .ok []
  | d :: ds =>
      match slot.fw.fxGet d.source with
      | .error e => .error e
      | .ok fwr =>
          match updDendrites slot alpha delta ds with
          | .error e => .error e
          | .ok ds' =>
              .ok ({ d with weight := d.weight - alpha * delta * fwr.phi_net } :: ds')

/-- Neuron loop of `backpropagation::update`: for every non-vacant neuron
the backward delta is read through the const accessor (throwing on an
unfixed cell), then every dendrite is updated.  The `Except` model reports
the first error and discards the partially rewritten weight list (the C++
code would leave the earlier updates applied before throwing). -/
def updateGo (slot : comp_slot) (alpha : ℚ) :
    List (Option neuron) → Except Err (List (Option neuron))
  | [] => .ok []
  | none :: rest => (updateGo slot alpha rest).map (fun l => none :: l)
  | some n :: rest =>
      match slot.bw.fxGet n.m_index with
      | .error e => .error e
      | .ok bwr =>
          match updDendrites slot alpha bwr.delta n.m_dendrites with
          | .error e => .error e
          | .ok ds =>
              match updateGo slot alpha rest with
              | .error e => .error e
              | .ok rest' => .ok (some { n with m_dendrites := ds } :: rest')

/-- Internal `backpropagation::update(alpha, slot)`. -/
def update (net : nn) (slot : comp_slot) (alpha : ℚ) : Except Err nn :=
  (updateGo slot alpha net.m_neurons).map
    (fun l => { net with m_neurons := l })

end backpropagation

/-- The trainer state (`class backpropagation`): the forward map computed at
construction, the hard-fixation list, and the slot pool.  The trained
network is passed explicitly to each operation. -/
structure backpropagation where
  m_fmap : List (List (ℕ × ℕ))
  m_fixes : List (ℕ × ℚ)
  m_slots : List comp_slot

namespace backpropagation

/-- Constructor (`backpropagation::backpropagation(nn, fixes)`); the
single-argument constructor is the `fixes = []` case. -/
def create (net : nn) (fixes : List (ℕ × ℚ)) : backpropagation :=
  { m_fmap := create_fmap net, m_fixes := fixes, m_slots := [] }

/-- Apply the hard fixations to a fresh slot (`assert_slots` body):
`slot.fw.fix(i, phi)` and `slot.bw.fix(i, 0)`, i.e. HARD pins of
`(0, phi)` and of `delta = 0`. -/
def applyFixes : comp_slot → List (ℕ × ℚ) → Except Err comp_slot
  | slot, [] => .ok slot
  | slot, (i, phi) :: rest =>
      match slot.fw.constFx i { net := 0, phi_net := phi } with
      | .error e => .error e
      | .ok fw' =>
          match slot.bw.constFx i { delta := 0 } with
          | .error e => .error e
          | .ok bw' => applyFixes { fw := fw', bw := bw' } rest

/-- Growth loop of `backpropagation::assert_slots(n)`: append `k` freshly
pinned slots at the back. -/
def assertGo (net : nn) (fixes : List (ℕ × ℚ)) :
    ℕ → List comp_slot → Except Err (List comp_slot)
  | 0, slots => .ok slots
  | k+1, slots =>
      match applyFixes (comp_slot.fresh net) fixes with
      | .error e => .error e
      | .ok slot => assertGo net fixes k (slots ++ [slot])

/-- `backpropagation::assert_slots(n)`: grow the pool to at least `n`
slots. -/
def assert_slots (net : nn) (tr : backpropagation) (n : ℕ) :
    Except Err backpropagation :=
  match assertGo net tr.m_fixes (n - tr.m_slots.length) tr.m_slots with
  | .error e => .error e
  | .ok slots => .ok { tr with m_slots := slots }

/-- On-line training call (`backpropagation::operator()(input, output,
criterion)`): ensure one slot, compute on the front slot, ask the criterion
for the learning factor, update only when it is non-zero, return the
squared error norm (together with the resulting network and trainer
states). -/
def train_one (net : nn) (tr : backpropagation) (input target : List ℚ)
    (crit : ℚ → ℚ) : Except Err (ℚ × nn × backpropagation) :=
  match assert_slots net tr 1 with
  | .error e => .error e
  | .ok tr1 =>
      match tr1.m_slots with
      | [] => .error .overrun
      | slot :: rest =>
          match compute net tr1.m_fmap slot input target with
          | .error e => .error e
          | .ok (e2, slot') =>
              let tr2 : backpropagation := { tr1 with m_slots := slot' :: rest }
              let alpha := crit e2
              if alpha ≠ 0 then
                match update net slot' alpha with
                | .error e => .error e
                | .ok net' => .ok (e2, net', tr2)
              else .ok (e2, net, tr2)

/-- The batch loop of `backpropagation::operator()(set, criterion)`: the
loop is bounded by the SLOT list (`slot != m_slots.end()`) while the sample
iterator advances unchecked, so when the pool holds more slots than there
are samples the iterator is dereferenced past `set.end()` — undefined
behaviour in C++, `Err.overrun` in the model. -/
def batchGo (net : nn) (fmap : List (List (ℕ × ℕ))) :
    List comp_slot → List (List ℚ × List ℚ) → ℚ →
    Except Err (ℚ × List comp_slot)
  | [], _, acc => .ok (acc, [])
  | slot :: slots, samples, acc =>
      match samples with
      | [] => .error .overrun
      | (inp, tgt) :: rest =>
          match compute net fmap slot inp tgt with
          | .error e => .error e
          | .ok (e2, slot') =>
              match batchGo net fmap slots rest (acc + e2) with
              | .error e => .error e
              | .ok (sum, slots') => .ok (sum, slot' :: slots')

/-- Per-slot update loop of the batch call: apply `update(alpha4sample, slot)`
for every slot in order, threading the network. -/
def updateAll (alpha : ℚ) : List comp_slot → nn → Except Err nn
  | [], net => .ok net
  | slot :: rest, net =>
      match update net slot alpha with
      | .error e => .error e
      | .ok net' => updateAll alpha rest net'

/-- Batch training call (`backpropagation::operator()(set, criterion)`):
ensure `|set|` slots, run the batch loop, average, ask the criterion once,
and if the factor is non-zero apply `alpha / |set|` per slot.  (For an empty
set the C++ average divides by zero; in `ℚ` the division yields 0.) -/
def train_batch (net : nn) (tr : backpropagation)
    (set : List (List ℚ × List ℚ)) (crit : ℚ → ℚ) :
    Except Err (ℚ × nn × backpropagation) :=
  match assert_slots net tr set.length with
  | .error e => .error e
  | .ok tr1 =>
      match batchGo net tr1.m_fmap tr1.m_slots set 0 with
      | .error e => .error e
      | .ok (sum, slots') =>
          let avg := sum / (set.length : ℚ)
          let tr2 : backpropagation := { tr1 with m_slots := slots' }
          let alpha := crit avg
          if alpha ≠ 0 then
            match updateAll (alpha / (set.length : ℚ)) slots' net with
            | .error e => .error e
            | .ok net' => .ok (avg, net', tr2)
          else .ok (avg, net, tr2)

end backpropagation

/-- Projection: the network resulting from a training call, if it
succeeded. -/
def resNet (r : Except Err (ℚ × nn × backpropagation)) : Option nn :=
  match r with
  | .ok v => some v.2.1
  | .error _ => none

/-- Boolean success test for `Except` results. -/
def isOkE {α : Type} : Except Err α → Bool
  | .ok _ => true
  | .error _ => false

/-- Projection: the squared-error value of a `compute` result. -/
def computeVal (r : Except Err (ℚ × comp_slot)) : Option ℚ :=
  match r with
  | .ok p => some p.1
  | .error _ => none

/-- Boolean test for the ShapeError outcome. -/
def isShapeE {α : Type} : Except Err α → Bool
  | .error .shape => true
  | _ => false

/-- Grid states reachable through the computation interface: construction,
reset, the protected direct set, the (spec-modelled) hard pin, and any
successful run of the memoising evaluator. -/
inductive ReachComp {Fx : Type} (net : nn) (es : EvalSpec Fx) (d : Fx) :
    Comp Fx → Prop where
  | init (slotCnt : ℕ) : ReachComp net es d (Comp.init slotCnt d)
  | reset (s : Comp Fx) : ReachComp net es d s → ReachComp net es d (s.reset d)
  | fxSet (s : Comp Fx) (i : ℕ) (v : Fx) (ov : Bool) (s' : Comp Fx) :
      ReachComp net es d s → s.fxSet i v ov = .ok s' → ReachComp net es d s'
  | constFx (s : Comp Fx) (i : ℕ) (v : Fx) (s' : Comp Fx) :
      ReachComp net es d s → s.constFx i v = .ok s' → ReachComp net es d s'
  | fxEval (s : Comp Fx) (fuel i : ℕ) (v : Fx) (s' : Comp Fx) :
      ReachComp net es d s → fxF net es fuel i s = some (.ok (v, s')) →
      ReachComp net es d s'

/-- A concrete linear network: INPUT 0, OUTPUT 1 with a single dendrite of
weight 1/2 from the input, identity activation. -/
def netFwd : nn := netIO.on_neuron 1 (fun n => n.set_dendrite 0 (1/2))

/-- `netFwd` extended by an isolated INNER neuron in slot 2: the forward and
backward sweeps leave its cells unfixed (the failing configuration of
C10). -/
def netIso : nn := netFwd.add_neuron .INNER idAct

/-- A recurrent network: INPUT 0; INNER 1 fed by 0 and by 2; INNER 2 fed by
1 (a 2-cycle); OUTPUT 3 reading 1.  Identity activations, all weights 1. -/
def netCyc : nn :=
  ((((nn.empty.add_neuron .INPUT idAct).add_neuron .INNER idAct).add_neuron
      .INNER idAct).add_neuron .OUTPUT idAct)
    |>.on_neuron 1 (fun n => (n.set_dendrite 0 1).set_dendrite 2 1)
    |>.on_neuron 2 (fun n => n.set_dendrite 1 1)
    |>.on_neuron 3 (fun n => n.set_dendrite 1 1)

/-- The trainer state holding two slots for `netFwd`, exactly as a previous
two-sample `train_batch` call leaves the pool (the failing state of C1). -/
def trTwoSlots : backpropagation :=
  { m_fmap := create_fmap netFwd, m_fixes := [],
    m_slots := [comp_slot.fresh netFwd, comp_slot.fresh netFwd] }

/-- The trainer state for `netIso` after `assert_slots(1)` (C10 witness). -/
def trIso1 : backpropagation :=
  { m_fmap := create_fmap netIso, m_fixes := [],
    m_slots := [comp_slot.fresh netIso] }

/-- A trivial evaluation hook over `Fx = ℚ`, used to exercise the generic
grid interface in witnesses. -/
def esTriv : EvalSpec ℚ :=
  { pre := fun _ => .ok (), deps := fun _ => [], post := fun _ _ => .ok 0 }

/-- A concrete grid state: cell 0 soft-fixed at 5, cell 1 unfixed, reset
flag cleared (reached from a fresh 2-cell grid by one direct set). -/
def compW : Comp ℚ :=
  { m_results := [{ m_val := 5, m_fix := .SOFTFIX },
                  { m_val := 0, m_fix := .UNFIXED }]
    m_reset := false }

/-- C7: transition contract of the fixable cell.
`set v` succeeds, storing `v` and keeping the fixation mark, exactly when the
cell is `UNFIXED` or soft-fixed with the override flag; `fix mode` raises the
state to the maximum of the current state and `mode`, leaving the value
unchanged; `reset` restores `(default, UNFIXED)` unless the cell is hard-fixed,
in which case it changes nothing. -/
theorem claim_C7_fixable_transitions (c c2 : fixable ℚ) (v d : ℚ) (ov : Bool)
    (mode : fix_t) :
    ((∃ r, c.set v ov = .ok r) ↔
      (c.m_fix = .UNFIXED ∨ (c.m_fix = .SOFTFIX ∧ ov = true)))
    ∧ (c.set v ov = .ok c2 → c2.m_val = v ∧ c2.m_fix = c.m_fix)
    ∧ (c.set v ov = .error .invariant ∨ (∃ r, c.set v ov = .ok r))
    ∧ ((c.fix mode).m_val = c.m_val
        ∧ ((c.fix mode).m_fix).toNat = Nat.max c.m_fix.toNat mode.toNat)
    ∧ (c.m_fix = .HARDFIX → c.reset d = c)
    ∧ (c.m_fix ≠ .HARDFIX → c.reset d = { m_val := d, m_fix := .UNFIXED }) := by
  obtain ⟨cv, cf⟩ := c
  cases cf <;> cases ov <;> cases mode <;>
    simp [fixable.set, fixable.fix, fixable.reset, fix_t.toNat, Nat.max_def] <;>
    (intro h; subst h; simp)

/-- Witness for C7 at a concrete soft-fixed cell with override. -/
theorem claim_C7_witness :
    ((∃ r, (fixable.set { m_val := (3 : ℚ), m_fix := .SOFTFIX } 5 true) = .ok r) ↔
      (({ m_val := (3 : ℚ), m_fix := .SOFTFIX } : fixable ℚ).m_fix = .UNFIXED ∨
        (({ m_val := (3 : ℚ), m_fix := .SOFTFIX } : fixable ℚ).m_fix = .SOFTFIX
          ∧ true = true)))
    ∧ ((fixable.set { m_val := (3 : ℚ), m_fix := .SOFTFIX } 5 true) =
          .ok { m_val := (5 : ℚ), m_fix := .SOFTFIX } →
        ({ m_val := (5 : ℚ), m_fix := .SOFTFIX } : fixable ℚ).m_val = 5
          ∧ ({ m_val := (5 : ℚ), m_fix := .SOFTFIX } : fixable ℚ).m_fix =
              ({ m_val := (3 : ℚ), m_fix := .SOFTFIX } : fixable ℚ).m_fix)
    ∧ ((fixable.set { m_val := (3 : ℚ), m_fix := .SOFTFIX } 5 true) =
          .error .invariant ∨
        (∃ r, (fixable.set { m_val := (3 : ℚ), m_fix := .SOFTFIX } 5 true) = .ok r))
    ∧ ((fixable.fix { m_val := (3 : ℚ), m_fix := .SOFTFIX } .HARDFIX).m_val =
          ({ m_val := (3 : ℚ), m_fix := .SOFTFIX } : fixable ℚ).m_val
        ∧ ((fixable.fix { m_val := (3 : ℚ), m_fix := .SOFTFIX } .HARDFIX).m_fix).toNat =
            Nat.max (fix_t.toNat .SOFTFIX) (fix_t.toNat .HARDFIX))
    ∧ (({ m_val := (3 : ℚ), m_fix := .SOFTFIX } : fixable ℚ).m_fix = .HARDFIX →
        (fixable.reset { m_val := (3 : ℚ), m_fix := .SOFTFIX } 7) =
          { m_val := (3 : ℚ), m_fix := .SOFTFIX })
    ∧ (({ m_val := (3 : ℚ), m_fix := .SOFTFIX } : fixable ℚ).m_fix ≠ .HARDFIX →
        (fixable.reset { m_val := (3 : ℚ), m_fix := .SOFTFIX } 7) =
          { m_val := (7 : ℚ), m_fix := .UNFIXED }) :=
  claim_C7_fixable_transitions { m_val := 3, m_fix := .SOFTFIX }
    { m_val := 5, m_fix := .SOFTFIX } 5 7 true .HARDFIX

theorem slotOk_nil : slotOk [] := by
  intro i n h
  simp [slotOk] at h

theorem slotOk_append_one {l : List (Option neuron)} {n : neuron}
    (hl : slotOk l) (hn : n.m_index = l.length) : slotOk (l ++ [some n]) := by
  intro i m h
  rcases lt_trichotomy i l.length with hi | hi | hi
  · exact hl i m (by rwa [List.get?_append hi] at h)
  · subst hi
    rw [List.get?_concat_length] at h
    cases h
    exact hn
  · rw [List.get?_append_right (Nat.le_of_lt hi)] at h
    rw [List.get?_eq_none.mpr (by simp; omega)] at h
    cases h

theorem slotOk_pad {l : List (Option neuron)} (hl : slotOk l) (k : ℕ) :
    slotOk (l ++ List.replicate k none) := by
  intro i m h
  by_cases hi : i < l.length
  · exact hl i m (by rwa [List.get?_append hi] at h)
  · rw [List.get?_append_right (Nat.le_of_not_lt hi)] at h
    have := List.get?_mem h
    have := List.eq_of_mem_replicate this
    simp at this

theorem slotOk_map (f : neuron → neuron) {l : List (Option neuron)}
    (hl : slotOk l) (hf : ∀ n, (f n).m_index = n.m_index) :
    slotOk (l.map (Option.map f)) := by
  intro i m h
  rw [List.get?_map] at h
  cases ho : l.get? i with
  | none => rw [ho] at h; cases h
  | some o =>
      rw [ho] at h
      cases o with
      | none => simp at h
      | some n =>
          simp at h
          rw [← h, hf]
          exact hl i n ho

theorem slotOk_set_some {l : List (Option neuron)} {j : ℕ} {n : neuron}
    (hl : slotOk l) (hn : n.m_index = j) : slotOk (l.set j (some n)) := by
  intro i m h
  rw [List.get?_set] at h
  by_cases hij : j = i
  · rw [if_pos hij] at h
    cases hg : l.get? i with
    | none => rw [hg] at h; cases h
    | some o =>
        rw [hg] at h
        simp at h
        rw [← h, hn, hij]
  · rw [if_neg hij] at h
    exact hl i m h

theorem slotOk_set_none {l : List (Option neuron)} {j : ℕ}
    (hl : slotOk l) : slotOk (l.set j none) := by
  intro i m h
  rw [List.get?_set] at h
  by_cases hij : j = i
  · rw [if_pos hij] at h
    cases hg : l.get? i with
    | none => rw [hg] at h; cases h
    | some o => rw [hg] at h; simp at h
  · rw [if_neg hij] at h
    exact hl i m h

theorem slotOk_reindexGo (rest : List (Option neuron)) :
    ∀ acc ins outs, slotOk acc → slotOk (nn.reindexGo rest acc ins outs).1 := by
  induction rest with
  | nil => intro acc ins outs h; exact h
  | cons o rest ih =>
      intro acc ins outs h
      cases o with
      | none => exact ih acc ins outs h
      | some n =>
          exact ih _ _ _ (slotOk_append_one h rfl)

/-- Reindexing establishes the slot-index invariant unconditionally. -/
theorem slotOk_reindex (net : nn) : slotOk net.reindex.m_neurons :=
  slotOk_reindexGo net.m_neurons [] [] [] slotOk_nil

theorem slotOk_add (net : nn) (t : type_t) (act : ActFn)
    (h : slotOk net.m_neurons) : slotOk (net.add_neuron t act).m_neurons := by
  have h1 : slotOk (net.m_neurons ++
      [some { m_index := net.m_neurons.length, m_type := t,
              m_act_fn := act, m_dendrites := [] }]) :=
    slotOk_append_one h rfl
  unfold nn.add_neuron nn.io_add
  cases t <;> exact h1

theorem slotOk_set_neuron (net : nn) (i : ℕ) (t : type_t) (act : ActFn)
    (h : slotOk net.m_neurons) : slotOk (net.set_neuron i t act).m_neurons := by
  have hpad : slotOk (net.m_neurons ++
      List.replicate (i + 1 - net.m_neurons.length) none) := slotOk_pad h _
  unfold nn.set_neuron
  cases hg : (net.m_neurons ++
      List.replicate (i + 1 - net.m_neurons.length) none).get? i with
  | none =>
      simp only [hg]
      unfold nn.io_add
      cases t <;> exact slotOk_set_some hpad rfl
  | some o =>
      cases o with
      | none =>
          simp only [hg]
          unfold nn.io_add
          cases t <;> exact slotOk_set_some hpad rfl
      | some old =>
          simp only [hg]
          unfold nn.io_add nn.io_remove nn.synapses_remove
          have hm : slotOk ((net.m_neurons ++
              List.replicate (i + 1 - net.m_neurons.length) none).map
                (Option.map (fun (m : neuron) => m.unset_dendrite i))) :=
            slotOk_map (fun (m : neuron) => m.unset_dendrite i) hpad (fun n => rfl)
          cases old.m_type <;> cases t <;> exact slotOk_set_some hm rfl

theorem slotOk_remove (net : nn) (n : neuron)
    (h : slotOk net.m_neurons) : slotOk (net.remove_neuron n).m_neurons := by
  unfold nn.remove_neuron nn.io_remove nn.synapses_remove
  have hm : slotOk (net.m_neurons.map (Option.map (fun (m : neuron) => m.unset_dendrite n.m_index))) :=
    slotOk_map (fun (m : neuron) => m.unset_dendrite n.m_index) h (fun m => rfl)
  cases n.m_type <;> exact slotOk_set_none hm

theorem slotOk_minimiseGoSlots (net : nn) (i k : ℕ) (h : slotOk net.m_neurons) :
    slotOk (nn.minimiseGoSlots net i k).1.m_neurons := by
  induction k generalizing net i with
  | zero => exact h
  | succ k ih =>
      unfold nn.minimiseGoSlots
      cases hg : net.m_neurons.get? i with
      | none => exact ih net (i+1) h
      | some o =>
          cases o with
          | none => exact ih net (i+1) h
          | some n =>
              by_cases hc : n.m_type = .INNER ∧ n.m_dendrites.length = 0
              · simp only [hg, if_pos hc]
                exact ih (net.remove_neuron n) (i+1) (slotOk_remove net n h)
              · simp only [hg, if_neg hc]
                exact ih net (i+1) h

/-- C9: index invariant of the topology.
For every network reachable by any sequence of `add_neuron`, `set_neuron`,
`remove_neuron`, `reindex`, `prune` and `minimise` operations, every neuron
retrievable from a non-vacant slot `i` reports stored index `i`. -/
theorem claim_C9_index_invariant (net : nn) (h : ReachableNN net) :
    ∀ i n, net.get_neuron i = some n → n.m_index = i := by
  have key : slotOk net.m_neurons := by
    induction h with
    | empty => exact slotOk_nil
    | add net t act _ ih => exact slotOk_add net t act ih
    | set net i t act _ ih => exact slotOk_set_neuron net i t act ih
    | remove net n _ _ ih => exact slotOk_remove net n ih
    | reindex net _ _ => exact slotOk_reindex net
    | prune net _ ih => exact ih
    | minimise net _ _ => exact slotOk_reindex _
  intro i n hg
  unfold nn.get_neuron at hg
  cases ho : net.m_neurons.get? i with
  | none => rw [ho] at hg; cases hg
  | some o =>
      rw [ho] at hg
      cases o with
      | none => cases hg
      | some m =>
          cases hg
          exact key i n ho

theorem netIO_reachable : ReachableNN netIO :=
  .add _ _ _ (.add _ _ _ .empty)

/-- Witness for C9: in the concrete two-neuron network, slot 1 holds a neuron
whose stored index is 1. -/
theorem claim_C9_witness :
    netIO.get_neuron 1 =
      some { m_index := 1, m_type := .OUTPUT, m_act_fn := idAct, m_dendrites := [] }
    ∧ ({ m_index := 1, m_type := .OUTPUT, m_act_fn := idAct,
         m_dendrites := [] } : neuron).m_index = 1 :=
  ⟨rfl, claim_C9_index_invariant netIO netIO_reachable 1
    { m_index := 1, m_type := .OUTPUT, m_act_fn := idAct, m_dendrites := [] } rfl⟩

/-- C2 (code bug): `nn::prune` does not prune.
The traversal body `n.minimise_dendrites;` names the member function without
calling it, so after `prune()` the weight-0 dendrite of the output neuron is
still present; an actual call of `neuron::minimise_dendrites` (second
conjunct) would drop it, as the claim and the function's own documentation
state. -/
theorem claim_C2_prune_is_noop :
    ((netZeroDend.prune).get_neuron 1).map (fun n => n.m_dendrites.map dendrite.weight)
        = some [0]
    ∧ ((netZeroDend.on_neuron 1 neuron.minimise_dendrites).get_neuron 1).map
        (fun n => n.m_dendrites.map dendrite.weight) = some [] := by
  constructor <;> rfl

theorem filter_length_set {α : Type} (p : α → Bool) :
    ∀ (l : List α) (i : ℕ) (a b : α), l.get? i = some b →
      ((l.set i a).filter p).length + (if p b then 1 else 0) =
        (l.filter p).length + (if p a then 1 else 0) := by
  intro l
  induction l with
  | nil => intro i a b h; cases h
  | cons x xs ih =>
      intro i a b h
      cases i with
      | zero =>
          simp only [List.get?] at h
          injection h with h
          subst h
          simp only [List.set, List.filter_cons]
          by_cases hb : p x <;> by_cases ha : p a <;> simp [hb, ha]
      | succ i =>
          simp only [List.get?] at h
          have := ih i a b h
          simp only [List.set, List.filter_cons]
          by_cases hx : p x
          · simp [hx]
            omega
          · simpa [hx] using this

theorem fixable_set_ok_fix {T : Type} {c c' : fixable T} {v : T} {ov : Bool}
    (h : c.set v ov = .ok c') : c'.m_fix = c.m_fix := by
  obtain ⟨cv, cf⟩ := c
  cases cf <;> cases ov <;> simp [fixable.set] at h <;> simp [← h]

theorem unfixedCount_softfix {Fx : Type} {s : Comp Fx} {i : ℕ} {c : fixable Fx}
    (hg : s.m_results.get? i = some c) (hc : c.fixed = false) :
    Comp.unfixedCount
        { m_results := s.m_results.set i (c.fix .SOFTFIX), m_reset := false }
      + 1 = s.unfixedCount := by
  have hfix : (c.fix .SOFTFIX).fixed = true := by
    obtain ⟨cv, cf⟩ := c
    cases cf <;> simp_all [fixable.fixed, fixable.fix, fix_t.toNat]
  have key := filter_length_set (fun c => !c.fixed) s.m_results i (c.fix .SOFTFIX) c hg
  simp only [Comp.unfixedCount]
  simp [hc, hfix] at key
  omega

theorem unfixedCount_override_set {Fx : Type} {s : Comp Fx} {i : ℕ}
    {c2 c3 : fixable Fx} {v : Fx} (hg : s.m_results.get? i = some c2)
    (hset : c2.set v true = .ok c3) (b : Bool) :
    Comp.unfixedCount { m_results := s.m_results.set i c3, m_reset := b } =
      s.unfixedCount := by
  have hfix : c3.m_fix = c2.m_fix := fixable_set_ok_fix hset
  have hfixed : c3.fixed = c2.fixed := by simp [fixable.fixed, hfix]
  have key := filter_length_set (fun c => !c.fixed) s.m_results i c3 c2 hg
  simp only [Comp.unfixedCount]
  simp only [hfixed] at key
  by_cases h2 : c2.fixed <;> simp [h2] at key <;> omega

theorem fx_mono {Fx : Type} (net : nn) (es : EvalSpec Fx) : ∀ fuel : ℕ,
    (∀ i s v s', fxF net es fuel i s = some (.ok (v, s')) →
      s'.m_results.length = s.m_results.length ∧
      s'.unfixedCount ≤ s.unfixedCount ∧ (s' = s ∨ s'.m_reset = false))
    ∧ (∀ l s vs s', fxListF net es fuel l s = some (.ok (vs, s')) →
      s'.m_results.length = s.m_results.length ∧
      s'.unfixedCount ≤ s.unfixedCount ∧ (s' = s ∨ s'.m_reset = false)) := by
  intro fuel
  induction fuel with
  | zero =>
      constructor
      · intro i s v s' h
        simp [fxF] at h
      · intro l s vs s' h
        cases l with
        | nil =>
            simp only [fxListF, Option.some_inj, Except.ok.injEq,
              Prod.mk.injEq] at h
            rcases h with ⟨h1, h2⟩
            subst h1; subst h2
            exact ⟨rfl, le_refl _, Or.inl rfl⟩
        | cons j js =>
            simp [fxListF] at h
  | succ fuel ih =>
      obtain ⟨ihF, ihL⟩ := ih
      constructor
      · intro i s v s' h
        rw [fxF] at h
        cases hg : s.m_results.get? i with
        | none => rw [hg] at h; simp at h
        | some c =>
            rw [hg] at h
            simp only [] at h
            by_cases hc : c.fixed
            · rw [if_pos hc] at h
              simp only [Option.some_inj, Except.ok.injEq, Prod.mk.injEq] at h
              rcases h with ⟨-, h2⟩
              subst h2
              exact ⟨rfl, le_refl _, Or.inl rfl⟩
            · rw [if_neg hc] at h
              cases hn : net.get_neuron i with
              | none => rw [hn] at h; simp at h
              | some n =>
                  rw [hn] at h
                  simp only [] at h
                  cases hp : es.pre n with
                  | error e => rw [hp] at h; simp at h
                  | ok u =>
                      rw [hp] at h
                      simp only [] at h
                      cases hl : fxListF net es fuel (es.deps n)
                          { m_results := s.m_results.set i (c.fix .SOFTFIX),
                            m_reset := false } with
                      | none => rw [hl] at h; cases h
                      | some r =>
                          rw [hl] at h
                          cases r with
                          | error e => simp at h
                          | ok p =>
                              obtain ⟨vs, s2⟩ := p
                              simp only [] at h
                              cases hpost : es.post n vs with
                              | error e => rw [hpost] at h; simp at h
                              | ok v2 =>
                                  rw [hpost] at h
                                  simp only [] at h
                                  cases hg2 : s2.m_results.get? i with
                                  | none => rw [hg2] at h; simp at h
                                  | some c2 =>
                                      rw [hg2] at h
                                      simp only [] at h
                                      cases hset : c2.set v2 true with
                                      | error e => rw [hset] at h; simp at h
                                      | ok c3 =>
                                          rw [hset] at h
                                          simp only [Option.some_inj,
                                            Except.ok.injEq, Prod.mk.injEq] at h
                                          rcases h with ⟨-, h2⟩
                                          subst h2
                                          obtain ⟨hlen2, hcnt2, hflag2⟩ :=
                                            ihL (es.deps n) _ vs s2 hl
                                          have hcf : c.fixed = false := by
                                            cases hv : c.fixed
                                            · rfl
                                            · exact absurd hv hc
                                          have hsoft := unfixedCount_softfix hg hcf
                                          have hov := unfixedCount_override_set
                                            hg2 hset s2.m_reset
                                          refine ⟨?_, ?_, ?_⟩
                                          · simp only [List.length_set] at hlen2 ⊢
                                            exact hlen2
                                          · simp only [Comp.unfixedCount] at hsoft hcnt2 hov ⊢
                                            omega
                                          · right
                                            rcases hflag2 with h2 | h2
                                            · rw [h2]
                                            · exact h2
      · intro l s vs s' h
        cases l with
        | nil =>
            simp only [fxListF, Option.some_inj, Except.ok.injEq,
              Prod.mk.injEq] at h
            rcases h with ⟨h1, h2⟩
            subst h1; subst h2
            exact ⟨rfl, le_refl _, Or.inl rfl⟩
        | cons j js =>
            rw [fxListF] at h
            cases hf : fxF net es fuel j s with
            | none => rw [hf] at h; cases h
            | some r =>
                rw [hf] at h
                cases r with
                | error e => simp at h
                | ok p =>
                    obtain ⟨v1, s1⟩ := p
                    simp only [] at h
                    cases hrest : fxListF net es fuel js s1 with
                    | none => rw [hrest] at h; cases h
                    | some r2 =>
                        rw [hrest] at h
                        cases r2 with
                        | error e => simp at h
                        | ok p2 =>
                            obtain ⟨vs2, s2⟩ := p2
                            simp only [Option.some_inj, Except.ok.injEq,
                              Prod.mk.injEq] at h
                            rcases h with ⟨-, h2⟩
                            subst h2
                            obtain ⟨hl1, hc1, hd1⟩ := ihF j s v1 s1 hf
                            obtain ⟨hl2, hc2, hd2⟩ := ihL js s1 vs2 s2 hrest
                            refine ⟨hl2.trans hl1, hc2.trans hc1, ?_⟩
                            rcases hd2 with h2 | h2
                            · subst h2
                              exact hd1
                            · exact Or.inr h2

theorem depsBound_foldl_le {Fx : Type} (es : EvalSpec Fx) :
    ∀ (l : List (Option neuron)) (a : ℕ), a ≤ l.foldl
      (fun m oe =>
        match oe with
        | none => m
        | some n => Nat.max m (es.deps n).length) a := by
  intro l
  induction l with
  | nil => intro a; exact le_refl a
  | cons o rest ih =>
      intro a
      cases o with
      | none => exact ih a
      | some m => exact le_trans (Nat.le_max_left _ _) (ih _)

theorem depsBound_mem {Fx : Type} (es : EvalSpec Fx) (n : neuron) :
    ∀ (l : List (Option neuron)) (a : ℕ), some n ∈ l →
      (es.deps n).length ≤ l.foldl
        (fun m oe =>
          match oe with
          | none => m
          | some n => Nat.max m (es.deps n).length) a := by
  intro l
  induction l with
  | nil => intro a hmem; cases hmem
  | cons o rest ih =>
      intro a hmem
      rcases List.mem_cons.mp hmem with heq | hmem2
      · subst heq
        exact le_trans (Nat.le_max_right _ _) (depsBound_foldl_le es rest _)
      · cases o with
        | none => exact ih a hmem2
        | some m => exact ih _ hmem2

theorem depsBound_spec {Fx : Type} (net : nn) (es : EvalSpec Fx) (i : ℕ)
    (n : neuron) (h : net.get_neuron i = some n) :
    (es.deps n).length ≤ depsBound net es := by
  unfold nn.get_neuron at h
  cases hg : net.m_neurons.get? i with
  | none => rw [hg] at h; cases h
  | some o =>
      rw [hg] at h
      cases o with
      | none => cases h
      | some m =>
          cases h
          exact depsBound_mem es n net.m_neurons 0 (List.get?_mem hg)

theorem fx_isSome {Fx : Type} (net : nn) (es : EvalSpec Fx) (D : ℕ)
    (hD : ∀ i n, net.get_neuron i = some n → (es.deps n).length ≤ D) :
    ∀ fuel : ℕ,
    (∀ i s, Comp.unfixedCount s * (D + 1) + 1 ≤ fuel →
      (fxF net es fuel i s).isSome = true)
    ∧ (∀ l s, Comp.unfixedCount s * (D + 1) + l.length + 1 ≤ fuel →
      (fxListF net es fuel l s).isSome = true) := by
  intro fuel
  induction fuel with
  | zero =>
      exact ⟨fun i s h => absurd h (by omega),
        fun l s h => absurd h (by omega)⟩
  | succ fuel ih =>
      obtain ⟨ihF, ihL⟩ := ih
      constructor
      · intro i s hcnt
        rw [fxF]
        cases hg : s.m_results.get? i with
        | none => rfl
        | some c =>
            simp only []
            by_cases hc : c.fixed
            · rw [if_pos hc]; rfl
            · rw [if_neg hc]
              cases hn : net.get_neuron i with
              | none => rfl
              | some n =>
                  simp only []
                  cases hp : es.pre n with
                  | error e => rfl
                  | ok u =>
                      simp only []
                      have hcf : c.fixed = false := by
                        cases hv : c.fixed
                        · rfl
                        · exact absurd hv hc
                      have hsoft := unfixedCount_softfix hg hcf
                      have hdep : (es.deps n).length ≤ D := hD i n hn
                      have hlt : Comp.unfixedCount
                          { m_results := s.m_results.set i (c.fix .SOFTFIX),
                            m_reset := false } * (D + 1) +
                          (es.deps n).length + 1 ≤ fuel := by
                        have h1 : Comp.unfixedCount s ≥ 1 := by omega
                        nlinarith [hsoft, hdep, hcnt]
                      have hsome := ihL (es.deps n)
                        { m_results := s.m_results.set i (c.fix .SOFTFIX),
                          m_reset := false } hlt
                      cases hl : fxListF net es fuel (es.deps n)
                          { m_results := s.m_results.set i (c.fix .SOFTFIX),
                            m_reset := false } with
                      | none => rw [hl] at hsome; cases hsome
                      | some r =>
                          cases r with
                          | error e => rfl
                          | ok p =>
                              obtain ⟨vs, s2⟩ := p
                              simp only []
                              cases hpost : es.post n vs with
                              | error e => rfl
                              | ok v2 =>
                                  simp only []
                                  cases hg2 : s2.m_results.get? i with
                                  | none =>
                                      exfalso
                                      obtain ⟨hlen2, -, -⟩ :=
                                        (fx_mono net es fuel).2 (es.deps n) _ vs s2 hl
                                      simp only [List.length_set] at hlen2
                                      rw [List.get?_eq_none] at hg2
                                      have hlt2 : i < s.m_results.length := by
                                        by_contra hge
                                        rw [List.get?_eq_none.mpr
                                          (Nat.le_of_not_lt hge)] at hg
                                        cases hg
                                      omega
                                  | some c2 =>
                                      simp only []
                                      cases hset : c2.set v2 true with
                                      | error e => rfl
                                      | ok c3 => rfl
      · intro l s hcnt
        cases l with
        | nil => rw [fxListF]; rfl
        | cons j js =>
            rw [fxListF]
            have h1 : Comp.unfixedCount s * (D + 1) + 1 ≤ fuel := by
              simp only [List.length_cons] at hcnt
              omega
            have hfsome := ihF j s h1
            cases hf : fxF net es fuel j s with
            | none => rw [hf] at hfsome; cases hfsome
            | some r =>
                cases r with
                | error e => rfl
                | ok p =>
                    obtain ⟨v1, s1⟩ := p
                    simp only []
                    obtain ⟨-, hc1, -⟩ := (fx_mono net es fuel).1 j s v1 s1 hf
                    have h2 : Comp.unfixedCount s1 * (D + 1) + js.length + 1 ≤ fuel := by
                      simp only [List.length_cons] at hcnt
                      nlinarith [hc1, hcnt]
                    have hrsome := ihL js s1 h2
                    cases hrest : fxListF net es fuel js s1 with
                    | none => rw [hrest] at hrsome; cases hrsome
                    | some r2 =>
                        cases r2 with
                        | error e => rfl
                        | ok p2 => rfl

/-- C4: termination of the mutating evaluator on arbitrary graphs.
For every network — cycles, self-loops and mutual recursion included —
every hook instance, every grid state and every index, the evaluator
`computation::fx` returns a result within the fuel budget `fxFuel`: the
pre-fixing of the visited cell (SOFT, before the hook recurses) strictly
shrinks the set of unfixed cells, so any back-edge reached during the
recursion reads the already-fixed value instead of recursing further. -/
theorem claim_C4_cycle_safe_termination {Fx : Type} (net : nn)
    (es : EvalSpec Fx) (i : ℕ) (s : Comp Fx) :
    (fxF net es (fxFuel net es s) i s).isSome = true :=
  (fx_isSome net es (depsBound net es)
    (fun j n h => depsBound_spec net es j n h)
    (s.unfixedCount * (depsBound net es + 1) + 1)).1 i s (le_refl _)

/-- Witness for C4 on the concrete recurrent network `netCyc` (whose inner
neurons 1 and 2 form a dependency cycle), evaluating the output neuron. -/
theorem claim_C4_witness :
    (fxF netCyc fwSpec
      (fxFuel netCyc fwSpec (Comp.init 4 { net := 0, phi_net := 0 })) 3
      (Comp.init 4 { net := 0, phi_net := 0 })).isSome = true :=
  claim_C4_cycle_safe_termination netCyc fwSpec 3
    (Comp.init 4 { net := 0, phi_net := 0 })

theorem fxSet_flag {Fx : Type} {s : Comp Fx} {i : ℕ} {v : Fx} {ov : Bool}
    {s' : Comp Fx} (h : s.fxSet i v ov = .ok s') : s'.m_reset = false := by
  unfold Comp.fxSet at h
  cases hg : s.m_results.get? i with
  | none => rw [hg] at h; cases h
  | some c =>
      rw [hg] at h
      simp only [] at h
      cases hfv : c.fix_val v ov .SOFTFIX with
      | error e => rw [hfv] at h; cases h
      | ok c2 =>
          rw [hfv] at h
          simp only [Except.map] at h
          cases h
          rfl

theorem constFx_flag {Fx : Type} {s : Comp Fx} {i : ℕ} {v : Fx}
    {s' : Comp Fx} (h : s.constFx i v = .ok s') : s'.m_reset = false := by
  unfold Comp.constFx at h
  cases hg : s.m_results.get? i with
  | none => rw [hg] at h; cases h
  | some c =>
      rw [hg] at h
      simp only [] at h
      cases hfv : c.fix_val v true .HARDFIX with
      | error e => rw [hfv] at h; cases h
      | ok c2 =>
          rw [hfv] at h
          simp only [Except.map] at h
          cases h
          rfl

theorem comp_reach_flag {Fx : Type} (net : nn) (es : EvalSpec Fx) (d : Fx) :
    ∀ s : Comp Fx, ReachComp net es d s → s.m_reset = true →
      (s.m_results.all fun c =>
        c.m_fix == fix_t.HARDFIX || c.m_fix == fix_t.UNFIXED) = true := by
  intro s h
  induction h with
  | init slotCnt =>
      intro _
      rw [List.all_eq_true]
      intro c hc
      unfold Comp.init at hc
      rw [List.eq_of_mem_replicate hc]
      rfl
  | reset s hs ih =>
      intro hflag
      unfold Comp.reset at hflag ⊢
      by_cases hr : s.m_reset
      · rw [if_pos hr] at hflag ⊢
        exact ih hflag
      · rw [if_neg hr] at hflag ⊢
        rw [List.all_eq_true]
        intro c hc
        simp only [List.mem_map] at hc
        obtain ⟨c0, -, hc0⟩ := hc
        unfold fixable.reset at hc0
        by_cases hh : c0.m_fix = fix_t.HARDFIX
        · rw [if_pos hh] at hc0
          subst hc0
          simp [hh]
        · rw [if_neg hh] at hc0
          subst hc0
          rfl
  | fxSet s i v ov s' hs hop ih =>
      intro hflag
      rw [fxSet_flag hop] at hflag
      cases hflag
  | constFx s i v s' hs hop ih =>
      intro hflag
      rw [constFx_flag hop] at hflag
      cases hflag
  | fxEval s fuel i v s' hs hop ih =>
      intro hflag
      obtain ⟨-, -, hd⟩ := (fx_mono net es fuel).1 i s v s' hop
      rcases hd with hd | hd
      · subst hd
        exact ih hflag
      · rw [hd] at hflag
        cases hflag

/-- C8: the reset invariant of a computation grid.
In every reachable grid state the `m_reset` flag being raised implies every
non-HARD cell is already UNFIXED (which justifies the O(1) skip), and
immediately after `reset()` returns — through the skip path or through the
cell-by-cell reset — every non-HARD cell of the grid is UNFIXED. -/
theorem claim_C8_reset_unfixes {Fx : Type} (net : nn) (es : EvalSpec Fx)
    (d : Fx) (s : Comp Fx) (h : ReachComp net es d s) :
    (s.m_reset = true →
      (s.m_results.all fun c =>
        c.m_fix == fix_t.HARDFIX || c.m_fix == fix_t.UNFIXED) = true)
    ∧ ((s.reset d).m_results.all fun c =>
        c.m_fix == fix_t.HARDFIX || c.m_fix == fix_t.UNFIXED) = true := by
  refine ⟨comp_reach_flag net es d s h, ?_⟩
  unfold Comp.reset
  by_cases hr : s.m_reset
  · rw [if_pos hr]
    exact comp_reach_flag net es d s h hr
  · rw [if_neg hr]
    rw [List.all_eq_true]
    intro c hc
    simp only [List.mem_map] at hc
    obtain ⟨c0, -, hc0⟩ := hc
    unfold fixable.reset at hc0
    by_cases hh : c0.m_fix = fix_t.HARDFIX
    · rw [if_pos hh] at hc0
      subst hc0
      simp [hh]
    · rw [if_neg hh] at hc0
      subst hc0
      rfl

/-- Witness for C8 on the concrete grid `compW` (one soft-fixed cell, flag
down), reached by a direct set on a fresh grid: after `reset()` no SOFT cell
remains. -/
theorem claim_C8_witness :
    (compW.m_reset = true →
      (compW.m_results.all fun c =>
        c.m_fix == fix_t.HARDFIX || c.m_fix == fix_t.UNFIXED) = true)
    ∧ ((compW.reset 0).m_results.all fun c =>
        c.m_fix == fix_t.HARDFIX || c.m_fix == fix_t.UNFIXED) = true :=
  claim_C8_reset_unfixes netIO esTriv 0 compW
    (.fxSet (Comp.init 2 0) 0 5 false compW (.init 2) rfl)

theorem fixable_set_error {T : Type} {c : fixable T} {v : T} {ov : Bool}
    {e : Err} (h : c.set v ov = .error e) : e = .invariant := by
  obtain ⟨cv, cf⟩ := c
  cases cf <;> cases ov <;> simp [fixable.set] at h <;> simp [h]

theorem fixable_fix_val_error {T : Type} {c : fixable T} {v : T} {ov : Bool}
    {mode : fix_t} {e : Err} (h : c.fix_val v ov mode = .error e) :
    e = .invariant := by
  unfold fixable.fix_val at h
  cases hs : c.set v ov with
  | error e2 =>
      rw [hs] at h
      simp only [Except.map] at h
      cases h
      exact fixable_set_error hs
  | ok c2 => rw [hs] at h; simp [Except.map] at h

theorem fxSet_error {Fx : Type} {s : Comp Fx} {i : ℕ} {v : Fx} {ov : Bool}
    {e : Err} (h : s.fxSet i v ov = .error e) :
    e = .index ∨ e = .invariant := by
  unfold Comp.fxSet at h
  cases hg : s.m_results.get? i with
  | none =>
      rw [hg] at h
      cases h
      exact Or.inl rfl
  | some c =>
      rw [hg] at h
      simp only [] at h
      cases hfv : c.fix_val v ov .SOFTFIX with
      | error e2 =>
          rw [hfv] at h
          simp only [Except.map] at h
          cases h
          exact Or.inr (fixable_fix_val_error hfv)
      | ok c2 => rw [hfv] at h; simp [Except.map] at h

theorem fx_errP {Fx : Type} (net : nn) (es : EvalSpec Fx) (P : Err → Prop)
    (hI : P .index) (hV : P .invariant)
    (hpre : ∀ n e, es.pre n = .error e → P e)
    (hpost : ∀ n vs e, es.post n vs = .error e → P e) : ∀ fuel : ℕ,
    (∀ i s e, fxF net es fuel i s = some (.error e) → P e)
    ∧ (∀ l s e, fxListF net es fuel l s = some (.error e) → P e) := by
  intro fuel
  induction fuel with
  | zero =>
      constructor
      · intro i s e h
        simp [fxF] at h
      · intro l s e h
        cases l <;> simp [fxListF] at h
  | succ fuel ih =>
      obtain ⟨ihF, ihL⟩ := ih
      constructor
      · intro i s e h
        rw [fxF] at h
        cases hg : s.m_results.get? i with
        | none =>
            rw [hg] at h
            cases h
            exact hI
        | some c =>
            rw [hg] at h
            simp only [] at h
            by_cases hc : c.fixed
            · rw [if_pos hc] at h
              simp at h
            · rw [if_neg hc] at h
              cases hn : net.get_neuron i with
              | none =>
                  rw [hn] at h
                  cases h
                  exact hI
              | some n =>
                  rw [hn] at h
                  simp only [] at h
                  cases hp : es.pre n with
                  | error e2 =>
                      rw [hp] at h
                      cases h
                      exact hpre n _ hp
                  | ok u =>
                      rw [hp] at h
                      simp only [] at h
                      cases hl : fxListF net es fuel (es.deps n)
                          { m_results := s.m_results.set i (c.fix .SOFTFIX),
                            m_reset := false } with
                      | none => rw [hl] at h; cases h
                      | some r =>
                          rw [hl] at h
                          cases r with
                          | error e2 =>
                              simp only [Option.some_inj,
                                Except.error.injEq] at h
                              subst h
                              exact ihL _ _ _ hl
                          | ok p =>
                              obtain ⟨vs, s2⟩ := p
                              simp only [] at h
                              cases hpost2 : es.post n vs with
                              | error e2 =>
                                  rw [hpost2] at h
                                  cases h
                                  exact hpost n vs _ hpost2
                              | ok v2 =>
                                  rw [hpost2] at h
                                  simp only [] at h
                                  cases hg2 : s2.m_results.get? i with
                                  | none =>
                                      rw [hg2] at h
                                      cases h
                                      exact hI
                                  | some c2 =>
                                      rw [hg2] at h
                                      simp only [] at h
                                      cases hset : c2.set v2 true with
                                      | error e2 =>
                                          rw [hset] at h
                                          cases h
                                          rw [fixable_set_error hset]
                                          exact hV
                                      | ok c3 =>
                                          rw [hset] at h
                                          simp at h
      · intro l s e h
        cases l with
        | nil => simp [fxListF] at h
        | cons j js =>
            rw [fxListF] at h
            cases hf : fxF net es fuel j s with
            | none => rw [hf] at h; cases h
            | some r =>
                rw [hf] at h
                cases r with
                | error e2 =>
                    simp only [Option.some_inj, Except.error.injEq] at h
                    subst h
                    exact ihF _ _ _ hf
                | ok p =>
                    obtain ⟨v1, s1⟩ := p
                    simp only [] at h
                    cases hrest : fxListF net es fuel js s1 with
                    | none => rw [hrest] at h; cases h
                    | some r2 =>
                        rw [hrest] at h
                        cases r2 with
                        | error e2 =>
                            simp only [Option.some_inj,
                              Except.error.injEq] at h
                            subst h
                            exact ihL _ _ _ hrest
                        | ok p2 => simp at h

theorem fwd_fxRun_no_shape (net : nn) (i : ℕ) (s : Comp FwRes) :
    isShapeE (fxRun net fwSpec i s) = false := by
  unfold fxRun
  cases h : fxF net fwSpec (fxFuel net fwSpec s) i s with
  | none => rfl
  | some r =>
      cases r with
      | ok p => rfl
      | error e =>
          have he : e ≠ Err.shape := by
            refine (fx_errP net fwSpec (fun e => e ≠ Err.shape)
              (by decide) (by decide) ?_ ?_ (fxFuel net fwSpec s)).1 i s e h
            · intro n e2 hp
              simp [fwSpec] at hp
            · intro n vs e2 hp
              simp [fwSpec] at hp
          cases e <;> first | rfl | exact absurd rfl he

theorem setInputs_no_shape : ∀ (idxs : List ℕ) (xs : List ℚ) (s : Comp FwRes),
    isShapeE (setInputs s idxs xs) = false := by
  intro idxs
  induction idxs with
  | nil => intro xs s; rfl
  | cons i rest ih =>
      intro xs s
      cases xs with
      | nil => rfl
      | cons x xs2 =>
          unfold setInputs
          simp only []
          cases hset : s.fxSet i { net := 0, phi_net := x } false with
          | error e =>
              rcases fxSet_error hset with he | he <;> rw [he] <;> rfl
          | ok s2 => exact ih xs2 s2

theorem forwardOutputs_no_shape (net : nn) :
    ∀ (idxs : List ℕ) (s : Comp FwRes),
    isShapeE (forwardOutputs net s idxs) = false := by
  intro idxs
  induction idxs with
  | nil => intro s; rfl
  | cons i rest ih =>
      intro s
      unfold forwardOutputs
      cases hr : fxRun net fwSpec i s with
      | error e =>
          simp only []
          have := fwd_fxRun_no_shape net i s
          rw [hr] at this
          cases e <;> first | rfl | simp [isShapeE] at this
      | ok p =>
          obtain ⟨v, s'⟩ := p
          simp only []
          cases hrest : forwardOutputs net s' rest with
          | error e =>
              simp only []
              have := ih s'
              rw [hrest] at this
              exact this
          | ok q =>
              obtain ⟨vs, s2⟩ := q
              rfl

theorem setInputs_take : ∀ (idxs : List ℕ) (xs : List ℚ) (s : Comp FwRes),
    idxs.length ≤ xs.length →
    setInputs s idxs xs = setInputs s idxs (xs.take idxs.length) := by
  intro idxs
  induction idxs with
  | nil => intro xs s h; rfl
  | cons i rest ih =>
      intro xs s h
      cases xs with
      | nil => simp at h
      | cons x xs2 =>
          simp only [List.length_cons, List.take_succ_cons]
          unfold setInputs
          simp only []
          cases hset : s.fxSet i { net := 0, phi_net := x } false with
          | error e => rfl
          | ok s2 =>
              exact ih xs2 s2 (by simpa using h)

theorem setInputs_short : ∀ (idxs : List ℕ) (xs : List ℚ) (s : Comp FwRes),
    xs.length < idxs.length → isOkE (setInputs s idxs xs) = false := by
  intro idxs
  induction idxs with
  | nil => intro xs s h; simp at h
  | cons i rest ih =>
      intro xs s h
      cases xs with
      | nil => rfl
      | cons x xs2 =>
          unfold setInputs
          simp only []
          cases hset : s.fxSet i { net := 0, phi_net := x } false with
          | error e => rfl
          | ok s2 =>
              exact ih xs2 s2 (by simpa using h)

/-- C3 (amended): the forward driver performs no input-size check.
It never fails with a ShapeError; when the input container has at least as
many scalars as there are input-layer neurons the surplus scalars are simply
ignored (the run equals the run on the consumed prefix); and when the input
has fewer scalars the input iterator is dereferenced past the end of the
container (undefined behaviour, `Err.overrun` in the model, possibly
preceded by another error) — the call never succeeds, but not by a
ShapeError. -/
theorem claim_C3_forward_no_size_check (net : nn) (s : Comp FwRes)
    (xs : List ℚ) :
    isShapeE (forwardRun net s xs) = false
    ∧ (net.m_inputs.length ≤ xs.length →
        forwardRun net s xs = forwardRun net s (xs.take net.m_inputs.length))
    ∧ (xs.length < net.m_inputs.length →
        isOkE (forwardRun net s xs) = false) := by
  refine ⟨?_, ?_, ?_⟩
  · unfold forwardRun
    cases hs : setInputs (s.reset { net := 0, phi_net := 0 }) net.m_inputs xs with
    | error e =>
        simp only []
        have := setInputs_no_shape net.m_inputs xs (s.reset { net := 0, phi_net := 0 })
        rw [hs] at this
        cases e <;> first | rfl | simp [isShapeE] at this
    | ok s1 =>
        simp only []
        exact forwardOutputs_no_shape net net.m_outputs s1
  · intro hlen
    unfold forwardRun
    rw [setInputs_take net.m_inputs xs (s.reset { net := 0, phi_net := 0 }) hlen]
  · intro hlen
    unfold forwardRun
    cases hs : setInputs (s.reset { net := 0, phi_net := 0 }) net.m_inputs xs with
    | error e => rfl
    | ok s1 =>
        exfalso
        have := setInputs_short net.m_inputs xs (s.reset { net := 0, phi_net := 0 }) hlen
        rw [hs] at this
        cases this

/-- Counterexample for C3 as stated: on `netFwd` (one input neuron) the
driver called with a two-element input succeeds — it does not fail with a
ShapeError although the sizes disagree. -/
theorem claim_C3_counterexample :
    ([5, 7] : List ℚ).length ≠ netFwd.m_inputs.length
    ∧ isOkE (forwardRun netFwd (Comp.init 2 { net := 0, phi_net := 0 })
        [5, 7]) = true := by
  constructor
  · decide
  · decide

/-- Witness for the amended C3 at the concrete oversized input. -/
theorem claim_C3_witness :
    isShapeE (forwardRun netFwd (Comp.init 2 { net := 0, phi_net := 0 })
        [5, 7]) = false
    ∧ (netFwd.m_inputs.length ≤ ([5, 7] : List ℚ).length →
        forwardRun netFwd (Comp.init 2 { net := 0, phi_net := 0 }) [5, 7] =
        forwardRun netFwd (Comp.init 2 { net := 0, phi_net := 0 })
          (([5, 7] : List ℚ).take netFwd.m_inputs.length))
    ∧ (([5, 7] : List ℚ).length < netFwd.m_inputs.length →
        isOkE (forwardRun netFwd (Comp.init 2 { net := 0, phi_net := 0 })
          [5, 7]) = false) :=
  claim_C3_forward_no_size_check netFwd
    (Comp.init 2 { net := 0, phi_net := 0 }) [5, 7]

theorem foldl_sq : ∀ (l : List ℚ) (acc : ℚ),
    l.foldl (fun a e => a + e * e) acc = acc + (l.map (fun e => e * e)).sum := by
  intro l
  induction l with
  | nil => intro acc; simp
  | cons x xs ih =>
      intro acc
      simp only [List.foldl_cons, List.map_cons, List.sum_cons, ih]
      ring

theorem errVec_map_sq : ∀ (out tgt : List ℚ),
    (errVec out tgt).map (fun e => e * e) =
      (out.zip tgt).map (fun p => (p.1 - p.2) * (p.1 - p.2)) := by
  intro out
  induction out with
  | nil => intro tgt; rfl
  | cons a as ih =>
      intro tgt
      cases tgt with
      | nil => rfl
      | cons b bs =>
          simp only [errVec, List.zipWith_cons_cons, List.zip_cons_cons,
            List.map_cons]
          exact congrArg (List.cons _) (ih bs)

theorem errNorm2_eq (out tgt : List ℚ) :
    errNorm2 out tgt =
      ((out.zip tgt).map (fun p => (p.1 - p.2) * (p.1 - p.2))).sum := by
  unfold errNorm2
  rw [foldl_sq, errVec_map_sq]
  simp

theorem compute_error_norm (net : nn) (fmap : List (List (ℕ × ℕ)))
    (slot : comp_slot) (input target : List ℚ) (e2 : ℚ) (slot' : comp_slot)
    (h : backpropagation.compute net fmap slot input target = .ok (e2, slot')) :
    ∃ out fwS, forwardRun net slot.fw input = .ok (out, fwS) ∧
      target.length = out.length ∧
      e2 = ((out.zip target).map (fun p => (p.1 - p.2) * (p.1 - p.2))).sum := by
  unfold backpropagation.compute at h
  cases hf : forwardRun net slot.fw input with
  | error e => rw [hf] at h; cases h
  | ok p =>
      obtain ⟨out, fwS⟩ := p
      rw [hf] at h
      simp only [] at h
      by_cases hlen : target.length ≠ out.length
      · rw [if_pos hlen] at h
        cases h
      · rw [if_neg hlen] at h
        cases hb : backwardRun net fmap fwS slot.bw (errVec out target) with
        | error e => rw [hb] at h; cases h
        | ok bwS =>
            rw [hb] at h
            simp only [Except.ok.injEq, Prod.mk.injEq] at h
            rcases h with ⟨h1, -⟩
            exact ⟨out, fwS, rfl, not_not.mp hlen,
              by rw [← h1]; exact errNorm2_eq out target⟩

/-- C5: the value returned by `backpropagation::compute` — and hence by
every successful on-line training call, which returns it unchanged — is the
squared error norm `Σ (actualᵢ − targetᵢ)²`, where `actual` is exactly the
output vector produced by the forward evaluation of the same call. -/
theorem claim_C5_error_norm :
    (∀ (net : nn) (fmap : List (List (ℕ × ℕ))) (slot : comp_slot)
       (input target : List ℚ) (e2 : ℚ) (slot' : comp_slot),
      backpropagation.compute net fmap slot input target = .ok (e2, slot') →
      ∃ out fwS, forwardRun net slot.fw input = .ok (out, fwS) ∧
        target.length = out.length ∧
        e2 = ((out.zip target).map (fun p => (p.1 - p.2) * (p.1 - p.2))).sum)
    ∧ (∀ (net : nn) (tr : backpropagation) (input target : List ℚ)
         (crit : ℚ → ℚ) (e2 : ℚ) (net' : nn) (tr' : backpropagation),
      backpropagation.train_one net tr input target crit = .ok (e2, net', tr') →
      ∃ tr1 slot rest out fwS,
        backpropagation.assert_slots net tr 1 = .ok tr1 ∧
        tr1.m_slots = slot :: rest ∧
        forwardRun net slot.fw input = .ok (out, fwS) ∧
        e2 = ((out.zip target).map (fun p => (p.1 - p.2) * (p.1 - p.2))).sum) := by
  refine ⟨compute_error_norm, ?_⟩
  intro net tr input target crit e2 net' tr' h
  unfold backpropagation.train_one at h
  cases ha : backpropagation.assert_slots net tr 1 with
  | error e => rw [ha] at h; cases h
  | ok tr1 =>
      rw [ha] at h
      simp only [] at h
      cases hsl : tr1.m_slots with
      | nil => rw [hsl] at h; cases h
      | cons slot rest =>
          rw [hsl] at h
          simp only [] at h
          cases hc : backpropagation.compute net tr1.m_fmap slot input target with
          | error e => rw [hc] at h; cases h
          | ok q =>
              obtain ⟨e2v, slot'v⟩ := q
              rw [hc] at h
              simp only [] at h
              have key : e2v = e2 := by
                by_cases hα : crit e2v ≠ 0
                · rw [if_pos hα] at h
                  cases hu : backpropagation.update net slot'v (crit e2v) with
                  | error e => rw [hu] at h; cases h
                  | ok net2 =>
                      rw [hu] at h
                      simp only [Except.ok.injEq, Prod.mk.injEq] at h
                      exact h.1
                · rw [if_neg hα] at h
                  simp only [Except.ok.injEq, Prod.mk.injEq] at h
                  exact h.1
              obtain ⟨out, fwS, h1, h2, h3⟩ :=
                compute_error_norm net tr1.m_fmap slot input target e2v slot'v hc
              exact ⟨tr1, slot, rest, out, fwS, rfl, hsl, h1, by rw [← key]; exact h3⟩

/-- Witness for C5 on the concrete one-edge network: the compute call on
input `[5]` against target `[3]` succeeds and its value is the squared error
of its own forward output. -/
theorem claim_C5_witness :
    ∃ e2 slot' out fwS,
      backpropagation.compute netFwd (create_fmap netFwd)
        (comp_slot.fresh netFwd) [5] [3] = .ok (e2, slot') ∧
      forwardRun netFwd (comp_slot.fresh netFwd).fw [5] = .ok (out, fwS) ∧
      ([3] : List ℚ).length = out.length ∧
      e2 = ((out.zip [3]).map (fun p => (p.1 - p.2) * (p.1 - p.2))).sum := by
  have hok : isOkE (backpropagation.compute netFwd (create_fmap netFwd)
      (comp_slot.fresh netFwd) [5] [3]) = true := by decide
  cases hc : backpropagation.compute netFwd (create_fmap netFwd)
      (comp_slot.fresh netFwd) [5] [3] with
  | error e =>
      rw [hc] at hok
      simp [isOkE] at hok
  | ok p =>
      obtain ⟨e2, slot'⟩ := p
      obtain ⟨out, fwS, h1, h2, h3⟩ :=
        claim_C5_error_norm.1 netFwd (create_fmap netFwd)
          (comp_slot.fresh netFwd) [5] [3] e2 slot' hc
      exact ⟨e2, slot', out, fwS, rfl, h1, h2, h3⟩

/-- C6: an on-line training call for which the criterion returns the
learning factor 0 does not reach the update step: if the call returns, the
resulting network is the input network, every dendrite weight included. -/
theorem claim_C6_zero_alpha_keeps_weights (net : nn) (tr : backpropagation)
    (input target : List ℚ) (crit : ℚ → ℚ)
    (h0 : ∀ e n t, backpropagation.train_one net tr input target crit =
      .ok (e, n, t) → crit e = 0) :
    resNet (backpropagation.train_one net tr input target crit) = none
    ∨ resNet (backpropagation.train_one net tr input target crit) = some net := by
  cases h : backpropagation.train_one net tr input target crit with
  | error e => left; rfl
  | ok p =>
      obtain ⟨e2, net', tr'⟩ := p
      right
      have hcrit : crit e2 = 0 := h0 e2 net' tr' h
      unfold backpropagation.train_one at h
      cases ha : backpropagation.assert_slots net tr 1 with
      | error e => rw [ha] at h; cases h
      | ok tr1 =>
          rw [ha] at h
          simp only [] at h
          cases hsl : tr1.m_slots with
          | nil => rw [hsl] at h; cases h
          | cons slot rest =>
              rw [hsl] at h
              simp only [] at h
              cases hc : backpropagation.compute net tr1.m_fmap slot input target with
              | error e => rw [hc] at h; cases h
              | ok q =>
                  obtain ⟨e2v, slot'v⟩ := q
                  rw [hc] at h
                  simp only [] at h
                  by_cases hα : crit e2v ≠ 0
                  · exfalso
                    rw [if_pos hα] at h
                    cases hu : backpropagation.update net slot'v (crit e2v) with
                    | error e => rw [hu] at h; cases h
                    | ok net2 =>
                        rw [hu] at h
                        simp only [Except.ok.injEq, Prod.mk.injEq] at h
                        rcases h with ⟨h1, -⟩
                        rw [h1] at hα
                        exact hα hcrit
                  · rw [if_neg hα] at h
                    simp only [Except.ok.injEq, Prod.mk.injEq] at h
                    rcases h with ⟨-, h2, -⟩
                    simp [resNet, ← h2]

/-- Witness for C6: with the constant-zero criterion the call on the
concrete network succeeds and returns the network unchanged. -/
theorem claim_C6_witness :
    (resNet (backpropagation.train_one netFwd (backpropagation.create netFwd [])
      [5] [3] (fun _ => 0))).getD nn.empty = netFwd := by
  have hok : isOkE (backpropagation.train_one netFwd
      (backpropagation.create netFwd []) [5] [3] (fun _ => 0)) = true := by decide
  have hd := claim_C6_zero_alpha_keeps_weights netFwd
    (backpropagation.create netFwd []) [5] [3] (fun _ => 0)
    (fun e n t _ => rfl)
  rcases hd with hd | hd
  · exfalso
    cases h : backpropagation.train_one netFwd (backpropagation.create netFwd [])
        [5] [3] (fun _ => 0) with
    | error e => rw [h] at hok; simp [isOkE] at hok
    | ok p => rw [h] at hd; simp [resNet] at hd
  · rw [hd]
    rfl

theorem updDendrites_reads (slot : comp_slot) (alpha delta : ℚ) :
    ∀ (ds ds' : List dendrite),
      backpropagation.updDendrites slot alpha delta ds = .ok ds' →
      ∀ d ∈ ds, isOkE (slot.fw.fxGet d.source) = true := by
  intro ds
  induction ds with
  | nil => intro ds' h d hd; cases hd
  | cons d0 rest ih =>
      intro ds' h d hd
      unfold backpropagation.updDendrites at h
      cases hget : slot.fw.fxGet d0.source with
      | error e => rw [hget] at h; cases h
      | ok fwr =>
          rw [hget] at h
          simp only [] at h
          cases hrest : backpropagation.updDendrites slot alpha delta rest with
          | error e => rw [hrest] at h; cases h
          | ok ds2 =>
              rcases List.mem_cons.mp hd with heq | hmem
              · subst heq
                rw [hget]
                rfl
              · exact ih ds2 hrest d hmem

theorem updateGo_reads (slot : comp_slot) (alpha : ℚ) :
    ∀ (l l' : List (Option neuron)),
      backpropagation.updateGo slot alpha l = .ok l' →
      ∀ i n, l.get? i = some (some n) →
        isOkE (slot.bw.fxGet n.m_index) = true ∧
        ∀ d ∈ n.m_dendrites, isOkE (slot.fw.fxGet d.source) = true := by
  intro l
  induction l with
  | nil => intro l' h i n hg; cases hg
  | cons o rest ih =>
      intro l' h i n hg
      cases o with
      | none =>
          unfold backpropagation.updateGo at h
          cases hrec : backpropagation.updateGo slot alpha rest with
          | error e => rw [hrec] at h; cases h
          | ok rest' =>
              cases i with
              | zero => cases hg
              | succ i2 => exact ih rest' hrec i2 n hg
      | some n0 =>
          unfold backpropagation.updateGo at h
          cases hbw : slot.bw.fxGet n0.m_index with
          | error e => rw [hbw] at h; cases h
          | ok bwr =>
              rw [hbw] at h
              simp only [] at h
              cases hud : backpropagation.updDendrites slot alpha bwr.delta
                  n0.m_dendrites with
              | error e => rw [hud] at h; cases h
              | ok ds =>
                  rw [hud] at h
                  simp only [] at h
                  cases hrec : backpropagation.updateGo slot alpha rest with
                  | error e => rw [hrec] at h; cases h
                  | ok rest' =>
                      cases i with
                      | zero =>
                          simp only [List.get?] at hg
                          injection hg with hg
                          injection hg with hg
                          subst hg
                          constructor
                          · rw [hbw]; rfl
                          · exact updDendrites_reads slot alpha bwr.delta
                              n0.m_dendrites ds hud
                      | succ i2 => exact ih rest' hrec i2 n hg

theorem update_fails_on_unfixed (net : nn) (slot : comp_slot) (alpha : ℚ)
    (hprem : ∃ i n, net.m_neurons.get? i = some (some n) ∧
      isOkE (slot.bw.fxGet n.m_index) = false) :
    isOkE (backpropagation.update net slot alpha) = false := by
  obtain ⟨i, n, hmem, hfail⟩ := hprem
  unfold backpropagation.update
  cases hgo : backpropagation.updateGo slot alpha net.m_neurons with
  | error e => rfl
  | ok l' =>
      exfalso
      have := (updateGo_reads slot alpha net.m_neurons l' hgo i n hmem).1
      rw [hfail] at this
      cases this

/-- C10: the update step reads, through the const accessor (which throws on
any unfixed cell), the backward delta of every non-vacant neuron and the
forward result of every dendrite source; consequently a training call whose
sweeps leave some non-vacant neuron's backward cell unfixed throws instead
of completing the weight update, whenever the criterion requests one. -/
theorem claim_C10_update_reads_all :
    (∀ (net : nn) (slot : comp_slot) (alpha : ℚ) (net' : nn),
      backpropagation.update net slot alpha = .ok net' →
      ∀ i n, net.m_neurons.get? i = some (some n) →
        isOkE (slot.bw.fxGet n.m_index) = true ∧
        ∀ d ∈ n.m_dendrites, isOkE (slot.fw.fxGet d.source) = true)
    ∧ (∀ (net : nn) (tr : backpropagation) (input target : List ℚ)
         (crit : ℚ → ℚ) (tr1 : backpropagation) (slot : comp_slot)
         (rest : List comp_slot) (e2 : ℚ) (slot' : comp_slot),
      backpropagation.assert_slots net tr 1 = .ok tr1 →
      tr1.m_slots = slot :: rest →
      backpropagation.compute net tr1.m_fmap slot input target = .ok (e2, slot') →
      crit e2 ≠ 0 →
      (∃ i n, net.m_neurons.get? i = some (some n) ∧
        isOkE (slot'.bw.fxGet n.m_index) = false) →
      isOkE (backpropagation.train_one net tr input target crit) = false) := by
  constructor
  · intro net slot alpha net' h i n hg
    unfold backpropagation.update at h
    cases hgo : backpropagation.updateGo slot alpha net.m_neurons with
    | error e => rw [hgo] at h; cases h
    | ok l' => exact updateGo_reads slot alpha net.m_neurons l' hgo i n hg
  · intro net tr input target crit tr1 slot rest e2 slot' ha hsl hc hα hprem
    unfold backpropagation.train_one
    rw [ha]
    simp only []
    rw [hsl]
    simp only []
    rw [hc]
    simp only []
    rw [if_pos hα]
    cases hu : backpropagation.update net slot' (crit e2) with
    | error e => rfl
    | ok net2 =>
        exfalso
        have := update_fails_on_unfixed net slot' (crit e2) hprem
        rw [hu] at this
        cases this

/-- Witness for C10 on `netIso`: the isolated INNER neuron's backward cell
stays unfixed through both sweeps, so the training call (with a criterion
requesting an update) fails instead of updating the weights. -/
theorem claim_C10_witness :
    isOkE (backpropagation.train_one netIso (backpropagation.create netIso [])
      [5] [3] (fun _ => 1)) = false := by
  have hbool : (match backpropagation.compute netIso trIso1.m_fmap
      (comp_slot.fresh netIso) [5] [3] with
    | .ok p => isOkE (p.2.bw.fxGet 2)
    | .error _ => true) = false := by decide
  cases hc : backpropagation.compute netIso trIso1.m_fmap
      (comp_slot.fresh netIso) [5] [3] with
  | error e =>
      rw [hc] at hbool
      cases hbool
  | ok p =>
      obtain ⟨e2, slot'⟩ := p
      rw [hc] at hbool
      simp only [] at hbool
      exact claim_C10_update_reads_all.2 netIso (backpropagation.create netIso [])
        [5] [3] (fun _ => 1) trIso1 (comp_slot.fresh netIso) [] e2 slot'
        rfl rfl hc one_ne_zero
        ⟨2, { m_index := 2, m_type := .INNER, m_act_fn := idAct, m_dendrites := [] },
          rfl, hbool⟩

/-- C1 (code bug): the batch training loop is bounded by the slot pool, not
by the training set.  Starting from the state `assert_slots(2)` leaves
behind (exactly a previous two-sample batch), a batch call on a one-sample
set runs the sample iterator past the end of the set: the model reports the
out-of-bounds dereference (`Err.overrun`) where the C++ code has undefined
behaviour, instead of invoking compute exactly once per sample and
returning the average. -/
theorem claim_C1_batch_loop_overruns :
    backpropagation.assert_slots netFwd (backpropagation.create netFwd []) 2 =
      .ok trTwoSlots
    ∧ backpropagation.train_batch netFwd trTwoSlots [([5], [3])] (fun _ => 0) =
      .error .overrun := by
  constructor
  · rfl
  · rfl

end Libnn
